import Mathlib

/-!
# Melexis CRC library (`mlx_crc.c`, `ganymede_kf_crc.c`, `ganymede_xfe_crc.c`)

A shallow embedding of the page checksum, of the rolling CRC, of the word based
CRC routines and of the two flash word compressors, followed by theorems about
them.

Conventions of the embedding:

* a buffer `const uint16_t * data` (or `const uint8_t * data`) is a `List Nat`
  holding the words (bytes) that really are in memory; reading an index outside
  the list is undefined behaviour in C and is reported as `Outcome.outOfBounds`;
* `size_t` is 64 bits wide, `uint32_t` is 32 bits wide, `uint16_t` is 16 bits
  wide; every operation that can overflow carries its explicit `% 2 ^ w`;
* a `for` loop whose bound depends on the input is a recursive function with a
  fuel argument; the entry point passes `bound + 1`, which is more than the
  number of loop tests the C loop can perform while the counter does not wrap.
-/

namespace MlxCrc

/-! ## Machine model -/

/-- What a call of one of the checksum or CRC functions can do: return `value`,
read a word outside the buffer (undefined behaviour in C, no result), or use up
the fuel of the loop before its test fails. -/
inductive Outcome where
  | ok (value : Nat)
  | outOfBounds
  | outOfFuel
  deriving DecidableEq, Repr

/-- Number of values of a `size_t`. -/
def SIZE_MOD : Nat := 2 ^ 64

/-- Number of values of a `uint32_t`. -/
def U32_MOD : Nat := 2 ^ 32

/-- The C expression `length - k` on `size_t` (wraps around below zero). -/
def size_sub (length k : Nat) : Nat := (length + SIZE_MOD - k) % SIZE_MOD

/-- The C expression `word_nr + k` on `size_t`. -/
def size_add (word_nr k : Nat) : Nat := (word_nr + k) % SIZE_MOD

/-- The word `data[i]` of a buffer, for an index known to be inside it (the
default is never used there). -/
def word_at (data : List Nat) (i : Nat) : Nat := data.getD i 0

/-! ## `mlx_crc.c` : `crc_calc24bitCrc` -/

/-- Body of the loop of `crc_calc24bitCrc` (lines 76 to 92): the new value of
`u32Crc` from the old one and the word `data[word_nr]`. -/
def crc_calc24bitCrc_body (u32Crc w : Nat) : Nat :=
  let c := u32Crc &&& 0xE10000
  let d0 := 0
  let d0 := if c &&& 0x800000 ≠ 0 then d0 ^^^ 1 else d0
  let d0 := if c &&& 0x400000 ≠ 0 then d0 ^^^ 1 else d0
  let d0 := if c &&& 0x200000 ≠ 0 then d0 ^^^ 1 else d0
  let d0 := if c &&& 0x010000 ≠ 0 then d0 ^^^ 1 else d0
  ((u32Crc <<< 1) % U32_MOD) ^^^ w ^^^ d0

/-- The `for` loop of `crc_calc24bitCrc`, from the counter value `word_nr`. -/
def crc_calc24bitCrc_loop (data : List Nat) (bound : Nat) : Nat → Nat → Nat → Outcome
  | 0, _, _ => Outcome.outOfFuel
  | fuel + 1, word_nr, u32Crc =>
    if word_nr < bound then
      match data[word_nr]? with
      | some w =>
        crc_calc24bitCrc_loop data bound fuel (size_add word_nr 1) (crc_calc24bitCrc_body u32Crc w)
      | none => Outcome.outOfBounds
    else Outcome.ok u32Crc

/-- The statement `return u32Crc & 0xFFFFFFu;` of `crc_calc24bitCrc`, reached
when the loop has ended. -/
def crc_calc24bitCrc_return : Outcome → Outcome
  | Outcome.ok u32Crc => Outcome.ok (u32Crc &&& 0xFFFFFF)
  | e => e

/-- The function `crc_calc24bitCrc(data, length, seed)`. -/
def crc_calc24bitCrc (data : List Nat) (length seed : Nat) : Outcome :=
  crc_calc24bitCrc_return
    (crc_calc24bitCrc_loop data (size_sub length 2) (size_sub length 2 + 1) 0 seed)

/-! ## `mlx_crc.c` : `crc_calcPageChecksum` -/

/-- Body of the loop of `crc_calcPageChecksum` (lines 34 to 44): the new value of
`u32Checksum` from the old one and the word `data[word_nr]`. -/
def crc_calcPageChecksum_body (u32Checksum w : Nat) : Nat :=
  let u32Checksum := (u32Checksum + w) % U32_MOD
  if u32Checksum > 0xFFFF then
    let u32Checksum := (u32Checksum + 1) % U32_MOD
    u32Checksum &&& 0xFFFF
  else u32Checksum

/-- The `for` loop of `crc_calcPageChecksum`, from the counter value `word_nr`. -/
def crc_calcPageChecksum_loop (data : List Nat) (bound : Nat) : Nat → Nat → Nat → Outcome
  | 0, _, _ => Outcome.outOfFuel
  | fuel + 1, word_nr, u32Checksum =>
    if word_nr < bound then
      match data[word_nr]? with
      | some w =>
        crc_calcPageChecksum_loop data bound fuel (size_add word_nr 1)
          (crc_calcPageChecksum_body u32Checksum w)
      | none => Outcome.outOfBounds
    else Outcome.ok u32Checksum

/-- Lines 49 to 54 of `crc_calcPageChecksum`: the high byte is added to the low
byte, the carry is added, and the low byte is returned as a `uint8_t`. -/
def crc_calcPageChecksum_tail (u32Checksum : Nat) : Nat :=
  let u32Checksum := (((u32Checksum >>> 8) &&& 0xFF) + (u32Checksum &&& 0xFF)) % U32_MOD
  let u32Checksum := if u32Checksum > 0xFF then (u32Checksum + 1) % U32_MOD else u32Checksum
  (u32Checksum &&& 0xFF) % 2 ^ 8

/-- The statements of `crc_calcPageChecksum` after the loop, reached when the
loop has ended. -/
def crc_calcPageChecksum_return : Outcome → Outcome
  | Outcome.ok u32Checksum => Outcome.ok (crc_calcPageChecksum_tail u32Checksum)
  | e => e

/-- The function `crc_calcPageChecksum(data, length)`. -/
def crc_calcPageChecksum (data : List Nat) (length : Nat) : Outcome :=
  crc_calcPageChecksum_return (crc_calcPageChecksum_loop data length (length + 1) 0 0)

/-! ## `mlx_crc.c` : `crc_calc16bitCrc` -/

/-- Number of values of a `uint16_t`. -/
def U16_MOD : Nat := 2 ^ 16

/-- Body of the loop of `crc_calc16bitCrc` (lines 61 to 65) from the byte
`b = data[word_nr]`. Every assignment to the `uint16_t` truncates to 16 bits; the
promoted operands stay below `2 ^ 28`, so the right hand sides do not overflow. -/
def crc_calc16bitCrc_body (u16Crc b : Nat) : Nat :=
  let u16Crc := (((u16Crc >>> 8) &&& 0xFF) ||| (u16Crc <<< 8)) % U16_MOD
  let u16Crc := (u16Crc ^^^ b) % U16_MOD
  let u16Crc := (u16Crc ^^^ ((u16Crc >>> 4) &&& 0x000F)) % U16_MOD
  let u16Crc := (u16Crc ^^^ ((u16Crc <<< 8) <<< 4)) % U16_MOD
  let u16Crc := (u16Crc ^^^ (((u16Crc &&& 0xFF) <<< 4) <<< 1)) % U16_MOD
  u16Crc

/-- The `for` loop of `crc_calc16bitCrc`, from the counter value `word_nr`; the
buffer holds bytes. -/
def crc_calc16bitCrc_loop (data : List Nat) (bound : Nat) : Nat → Nat → Nat → Outcome
  | 0, _, _ => Outcome.outOfFuel
  | fuel + 1, word_nr, u16Crc =>
    if word_nr < bound then
      match data[word_nr]? with
      | some b =>
        crc_calc16bitCrc_loop data bound fuel (size_add word_nr 1)
          (crc_calc16bitCrc_body u16Crc b)
      | none => Outcome.outOfBounds
    else Outcome.ok u16Crc

/-- The function `crc_calc16bitCrc(data, length, seed)`. -/
def crc_calc16bitCrc (data : List Nat) (length seed : Nat) : Outcome :=
  crc_calc16bitCrc_loop data length (length + 1) 0 seed

/-! ## `ganymede_kf_crc.c` : `compressor_by_2`, `crc_calcGanyKfCrc` -/

/-- One pass of the loop of `compressor_by_2` for the counter value `i`. -/
def compressor_by_2_body (data result i : Nat) : Nat :=
  let b0 := (data >>> i) &&& 1
  let b1 := (data >>> (i + 1)) &&& 1
  let b2 := (data >>> (i + 2)) &&& 1
  let compressed_bit := b0 ^^^ b1 ^^^ b2
  result ||| (compressed_bit <<< (i / 2))

/-- The function `compressor_by_2`: the loop runs for `i = 0, 2, .., 36`, then
the wrap-around bit is placed at position 19. -/
def compressor_by_2 (data : Nat) : Nat :=
  let result := (List.range' 0 19 2).foldl (compressor_by_2_body data) 0
  let b38 := (data >>> 38) &&& 1
  let b39 := (data >>> 39) &&& 1
  let b0 := data &&& 1
  let last_bit := b38 ^^^ b39 ^^^ b0
  result ||| (last_bit <<< 19)

/-- Body of the loop of `crc_calcGanyKfCrc` (lines 64 to 82) from the two words
`w1 = data[word_nr + 1]` and `w0 = data[word_nr + 0]`. -/
def crc_calcGanyKfCrc_body (u32Crc w1 w0 : Nat) : Nat :=
  let flash_word := (w1 <<< 16) ||| w0
  let comp_word := compressor_by_2 flash_word
  let c := u32Crc &&& 0xE10000
  let d0 := 0
  let d0 := if c &&& 0x800000 ≠ 0 then d0 ^^^ 1 else d0
  let d0 := if c &&& 0x400000 ≠ 0 then d0 ^^^ 1 else d0
  let d0 := if c &&& 0x200000 ≠ 0 then d0 ^^^ 1 else d0
  let d0 := if c &&& 0x010000 ≠ 0 then d0 ^^^ 1 else d0
  ((u32Crc <<< 1) % U32_MOD) ^^^ comp_word ^^^ d0

/-- The `for` loop of `crc_calcGanyKfCrc`, from the counter value `word_nr`. -/
def crc_calcGanyKfCrc_loop (data : List Nat) (bound : Nat) : Nat → Nat → Nat → Outcome
  | 0, _, _ => Outcome.outOfFuel
  | fuel + 1, word_nr, u32Crc =>
    if word_nr < bound then
      match data[size_add word_nr 1]?, data[size_add word_nr 0]? with
      | some w1, some w0 =>
        crc_calcGanyKfCrc_loop data bound fuel (size_add word_nr 2)
          (crc_calcGanyKfCrc_body u32Crc w1 w0)
      | _, _ => Outcome.outOfBounds
    else Outcome.ok u32Crc

/-- The statement `return u32Crc & 0xFFFFFFu;` of `crc_calcGanyKfCrc`, reached
when the loop has ended. -/
def crc_calcGanyKfCrc_return : Outcome → Outcome
  | Outcome.ok u32Crc => Outcome.ok (u32Crc &&& 0xFFFFFF)
  | e => e

/-- The function `crc_calcGanyKfCrc(data, length, seed)`. -/
def crc_calcGanyKfCrc (data : List Nat) (length seed : Nat) : Outcome :=
  crc_calcGanyKfCrc_return
    (crc_calcGanyKfCrc_loop data (size_sub length 2) (size_sub length 2 + 1) 0 seed)

/-! ## `ganymede_xfe_crc.c` : `indices_map`, `compressor_by_4`, `crc_calcGanyXfeCrc` -/

/-- The table `indices_map[18][7][2]`: each row holds seven pairs
`(index into the flash word, bit mask)`. -/
def indices_map : List (List (Nat × Nat)) := [
  [(0, 0x0080), (0, 0x0040), (0, 0x0020), (0, 0x0010), (4, 0x0100), (4, 0x0020), (4, 0x0004)],
  [(0, 0x0008), (0, 0x0004), (0, 0x0002), (0, 0x0001), (0, 0x0040), (4, 0x0010), (4, 0x0002)],
  [(1, 0x8000), (1, 0x4000), (1, 0x2000), (1, 0x1000), (0, 0x0020), (0, 0x0004), (4, 0x0001)],
  [(1, 0x0800), (1, 0x0400), (1, 0x0200), (1, 0x0100), (0, 0x0010), (0, 0x0002), (1, 0x4000)],
  [(1, 0x0080), (1, 0x0040), (1, 0x0020), (1, 0x0010), (1, 0x0400), (0, 0x0001), (1, 0x2000)],
  [(1, 0x0008), (1, 0x0004), (1, 0x0002), (1, 0x0001), (1, 0x0200), (1, 0x0040), (1, 0x1000)],
  [(2, 0x8000), (2, 0x4000), (2, 0x2000), (2, 0x1000), (1, 0x0100), (1, 0x0020), (1, 0x0004)],
  [(2, 0x0800), (2, 0x0400), (2, 0x0200), (2, 0x0100), (2, 0x4000), (1, 0x0010), (1, 0x0002)],
  [(2, 0x0080), (2, 0x0040), (2, 0x0020), (2, 0x0010), (2, 0x2000), (2, 0x0400), (1, 0x0001)],
  [(2, 0x0008), (2, 0x0004), (2, 0x0002), (2, 0x0001), (2, 0x1000), (2, 0x0200), (2, 0x0040)],
  [(3, 0x8000), (3, 0x4000), (3, 0x2000), (3, 0x1000), (2, 0x0004), (2, 0x0100), (2, 0x0020)],
  [(3, 0x0800), (3, 0x0400), (3, 0x0200), (3, 0x0100), (2, 0x0002), (3, 0x4000), (2, 0x0010)],
  [(3, 0x0080), (3, 0x0040), (3, 0x0020), (3, 0x0010), (2, 0x0001), (3, 0x2000), (3, 0x0400)],
  [(3, 0x0008), (3, 0x0004), (3, 0x0002), (3, 0x0001), (3, 0x0040), (3, 0x1000), (3, 0x0200)],
  [(4, 0x8000), (4, 0x4000), (4, 0x2000), (4, 0x1000), (3, 0x0020), (3, 0x0004), (3, 0x0100)],
  [(4, 0x0800), (4, 0x0400), (4, 0x0200), (4, 0x0100), (3, 0x0010), (3, 0x0002), (4, 0x4000)],
  [(4, 0x0080), (4, 0x0040), (4, 0x0020), (4, 0x0010), (4, 0x0400), (3, 0x0001), (4, 0x2000)],
  [(4, 0x0008), (4, 0x0004), (4, 0x0002), (4, 0x0001), (4, 0x0200), (4, 0x0040), (4, 0x1000)]]

/-- The C expression `(data[indices_map[item][k][0]] & indices_map[item][k][1]) != 0 ? 1 : 0`
for the row `row = indices_map[item]`. Every row has seven entries and every
index in the table is below five, the size of the window, so neither default is
used (`indices_map_rows`, `indices_map_indices`). -/
def compressor_by_4_sel (data : List Nat) (row : List (Nat × Nat)) (k : Nat) : Nat :=
  let e := row.getD k (0, 0)
  if (data.getD e.1 0) &&& e.2 ≠ 0 then 1 else 0

/-- Body of the loop of `compressor_by_4` for the row `row = indices_map[item]`. -/
def compressor_by_4_body (data : List Nat) (u32Retval : Nat) (row : List (Nat × Nat)) : Nat :=
  let u32Retval := (u32Retval <<< 1) % U32_MOD
  u32Retval |||
    ((compressor_by_4_sel data row 0 ^^^ compressor_by_4_sel data row 1 ^^^
      compressor_by_4_sel data row 2 ^^^ compressor_by_4_sel data row 3) ^^^
     (compressor_by_4_sel data row 4 ^^^ compressor_by_4_sel data row 5 ^^^
      compressor_by_4_sel data row 6))

/-- The function `compressor_by_4` on the five word window `data`: the loop
visits the rows of `indices_map` in order. -/
def compressor_by_4 (data : List Nat) : Nat :=
  indices_map.foldl (compressor_by_4_body data) 0

/-- Body of the loop of `crc_calcGanyXfeCrc` (lines 82 to 90) from the four
words `w3 = data[word_nr + 3]`, .., `w0 = data[word_nr + 0]`. -/
def crc_calcGanyXfeCrc_body (u32Crc w3 w2 w1 w0 : Nat) : Nat :=
  let flash_word := [0, w3, w2, w1, w0]
  let comp_word := compressor_by_4 flash_word
  let temp_d0 := (if u32Crc &&& 0x20000 ≠ 0 then 1 else 0) ^^^ (if u32Crc &&& 0x40 ≠ 0 then 1 else 0)
  let u32Crc := ((u32Crc <<< 1) % U32_MOD) ^^^ comp_word ^^^ temp_d0
  u32Crc &&& 0x3FFFF

/-- The `for` loop of `crc_calcGanyXfeCrc`, from the counter value `word_nr`. -/
def crc_calcGanyXfeCrc_loop (data : List Nat) (bound : Nat) : Nat → Nat → Nat → Outcome
  | 0, _, _ => Outcome.outOfFuel
  | fuel + 1, word_nr, u32Crc =>
    if word_nr < bound then
      match data[size_add word_nr 3]?, data[size_add word_nr 2]?,
          data[size_add word_nr 1]?, data[size_add word_nr 0]? with
      | some w3, some w2, some w1, some w0 =>
        crc_calcGanyXfeCrc_loop data bound fuel (size_add word_nr 4)
          (crc_calcGanyXfeCrc_body u32Crc w3 w2 w1 w0)
      | _, _, _, _ => Outcome.outOfBounds
    else Outcome.ok u32Crc

/-- The function `crc_calcGanyXfeCrc(data, length, seed)`: the accumulator is
returned as it is, without a final mask. -/
def crc_calcGanyXfeCrc (data : List Nat) (length seed : Nat) : Outcome :=
  crc_calcGanyXfeCrc_loop data (size_sub length 4) (size_sub length 4 + 1) 0 seed

/-! ## Reference steps, written from the specification

The specification describes each CRC as a shift register of its declared width
that is truncated after every step. These definitions follow that wording; the
theorems below compare them with the code. -/

/-- Feedback bit of the 24-bit register: the XOR of bits 23, 22, 21 and 16 of the
state. -/
def lfsr24_d0 (s : Nat) : Nat :=
  (xor (s.testBit 23) (xor (s.testBit 22) (xor (s.testBit 21) (s.testBit 16)))).toNat

/-- One step of the 24-bit register on the input `x`: shift the state left by
one, XOR in `x` and the feedback bit, mask to 24 bits. -/
def lfsr24_step (s x : Nat) : Nat := ((s <<< 1) ^^^ x ^^^ lfsr24_d0 s) &&& 0xFFFFFF

/-- Feedback bit of the 18-bit register: the XOR of bits 17 and 6 of the state. -/
def lfsr18_d0 (s : Nat) : Nat := (xor (s.testBit 17) (s.testBit 6)).toNat

/-- One step of the 18-bit register on the compressed word `c`: shift the state
left by one, XOR in `c` and the feedback bit, mask to 18 bits. -/
def lfsr18_step (s c : Nat) : Nat := ((s <<< 1) ^^^ c ^^^ lfsr18_d0 s) &&& 0x3FFFF

/-- The bit selected by one table entry `(idx, mask)` in the window `W`:
whether `W[idx] AND mask` is not zero. -/
def xfe_selected (W : List Nat) (e : Nat × Nat) : Bool := decide (word_at W e.1 &&& e.2 ≠ 0)

/-- The XOR of the bits selected in the window `W` by the entries of one table
row. -/
def xfe_row_parity (W : List Nat) (row : List (Nat × Nat)) : Bool :=
  row.foldl (fun b e => xor b (xfe_selected W e)) false

/-- Whether the table row `row` holds the entry `(idx, 2 ^ b)`, which selects bit
`b` of the window word `idx`, an odd number of times. -/
def xfe_selects_odd (row : List (Nat × Nat)) (idx b : Nat) : Bool :=
  row.foldl (fun acc e => xor acc (decide (e = (idx, 2 ^ b)))) false

/-- One addition of the page checksum as the specification words it: the word is
added and, when the sum exceeds `0xFFFF`, the sum is replaced by
`(sum + 1) AND 0xFFFF`. -/
def page_sum_step (sum w : Nat) : Nat :=
  if sum + w > 0xFFFF then (sum + w + 1) &&& 0xFFFF else sum + w

/-- The page checksum as the specification words it: the running sum from 0,
then `t = (sum >> 8) + (sum AND 0xFF)`, one more if `t > 0xFF`, and the low
byte of that. -/
def page_checksum_spec (data : List Nat) : Nat :=
  let sum := data.foldl page_sum_step 0
  let t := (sum >>> 8) + (sum &&& 0xFF)
  let t := if t > 0xFF then t + 1 else t
  t &&& 0xFF

/-- One byte of the rolling CRC as the specification words it: swap the two
bytes of the state, XOR the byte into the low byte, then the three feedback
XORs, each on the state the previous one produced. -/
def rolling16_step (state byte : Nat) : Nat :=
  let state := ((state &&& 0xFF) <<< 8) ||| (state >>> 8)
  let state := state ^^^ byte
  let state := state ^^^ ((state >>> 4) &&& 0x0F)
  let state := state ^^^ ((state <<< 12) % 2 ^ 16)
  let state := state ^^^ (((state &&& 0xFF) <<< 5) % 2 ^ 16)
  state

/-- One bit of the bit-serial CRC-16/CCITT: shift the state left by one modulo
`2 ^ 16` and, if the bit shifted out was 1, XOR in the polynomial `0x1021`. -/
def ccitt_shift (state : Nat) : Nat :=
  if state.testBit 15 then ((state <<< 1) % 2 ^ 16) ^^^ 0x1021 else (state <<< 1) % 2 ^ 16

/-- One byte of the bit-serial CRC-16/CCITT: the byte is XORed into the high
eight bits of the state, then the state is shifted eight times. -/
def ccitt_byte (state byte : Nat) : Nat :=
  Nat.iterate ccitt_shift 8 (state ^^^ (byte <<< 8))

/-! ## Theorems -/

/-! ### Arithmetic of `size_t` and buffer reads -/

theorem size_add_eq {a k : Nat} (h : a + k < SIZE_MOD) : size_add a k = a + k := by
  unfold size_add
  exact Nat.mod_eq_of_lt h

theorem size_sub_lt (n k : Nat) : size_sub n k < SIZE_MOD := by
  unfold size_sub
  exact Nat.mod_lt _ (by unfold SIZE_MOD; positivity)

theorem size_sub_eq {n k : Nat} (hk : k ≤ n) (hn : n < SIZE_MOD) : size_sub n k = n - k := by
  unfold size_sub
  have h1 : n + SIZE_MOD - k = (n - k) + SIZE_MOD := by omega
  rw [h1, Nat.add_mod_right]
  exact Nat.mod_eq_of_lt (by omega)

theorem getElem?_word_at {data : List Nat} {i : Nat} (h : i < data.length) :
    data[i]? = some (word_at data i) := by
  unfold word_at
  simp [List.getD, List.getElem?_eq_getElem h]

/-! ### The loops as folds over the counter values -/

theorem crc24_loop_eq (data : List Nat) (bound : Nat) :
    ∀ (m fuel word_nr u32Crc : Nat), word_nr + m = bound → bound ≤ data.length →
      bound < SIZE_MOD → m < fuel →
      crc_calc24bitCrc_loop data bound fuel word_nr u32Crc
        = Outcome.ok ((List.range' word_nr m).foldl
            (fun s i => crc_calc24bitCrc_body s (word_at data i)) u32Crc) := by
  intro m
  induction m with
  | zero =>
    intro fuel word_nr u32Crc hb _ _ hf
    obtain ⟨f, rfl⟩ : ∃ f, fuel = f + 1 := ⟨fuel - 1, by omega⟩
    have : ¬ word_nr < bound := by omega
    simp [crc_calc24bitCrc_loop, this]
  | succ m ih =>
    intro fuel word_nr u32Crc hb hd hs hf
    obtain ⟨f, rfl⟩ : ∃ f, fuel = f + 1 := ⟨fuel - 1, by omega⟩
    have h1 : word_nr < bound := by omega
    have h2 : data[word_nr]? = some (word_at data word_nr) := getElem?_word_at (by omega)
    have h3 : size_add word_nr 1 = word_nr + 1 := size_add_eq (by omega)
    simp only [crc_calc24bitCrc_loop, h1, if_true, h2, h3]
    rw [ih f (word_nr + 1) _ (by omega) hd hs (by omega)]
    simp [List.range'_succ]

theorem kf_loop_eq (data : List Nat) (bound : Nat) :
    ∀ (m fuel word_nr u32Crc : Nat), bound ≤ word_nr + 2 * m → word_nr + 2 * m < bound + 2 →
      word_nr + 2 * m ≤ data.length → word_nr + 2 * m < SIZE_MOD → m < fuel →
      crc_calcGanyKfCrc_loop data bound fuel word_nr u32Crc
        = Outcome.ok ((List.range' word_nr m 2).foldl
            (fun s i => crc_calcGanyKfCrc_body s (word_at data (i + 1)) (word_at data i))
            u32Crc) := by
  intro m
  induction m with
  | zero =>
    intro fuel word_nr u32Crc hb _ _ _ hf
    obtain ⟨f, rfl⟩ : ∃ f, fuel = f + 1 := ⟨fuel - 1, by omega⟩
    have : ¬ word_nr < bound := by omega
    simp [crc_calcGanyKfCrc_loop, this]
  | succ m ih =>
    intro fuel word_nr u32Crc hb hb2 hd hs hf
    obtain ⟨f, rfl⟩ : ∃ f, fuel = f + 1 := ⟨fuel - 1, by omega⟩
    have h1 : word_nr < bound := by omega
    have a0 : size_add word_nr 0 = word_nr := size_add_eq (by omega)
    have a1 : size_add word_nr 1 = word_nr + 1 := size_add_eq (by omega)
    have a2 : size_add word_nr 2 = word_nr + 2 := size_add_eq (by omega)
    have r0 : data[word_nr]? = some (word_at data word_nr) := getElem?_word_at (by omega)
    have r1 : data[word_nr + 1]? = some (word_at data (word_nr + 1)) :=
      getElem?_word_at (by omega)
    simp only [crc_calcGanyKfCrc_loop, h1, if_true, a0, a1, a2, r0, r1]
    rw [ih f (word_nr + 2) _ (by omega) (by omega) (by omega) (by omega) (by omega)]
    simp [List.range'_succ]

theorem xfe_loop_eq (data : List Nat) (bound : Nat) :
    ∀ (m fuel word_nr u32Crc : Nat), bound ≤ word_nr + 4 * m → word_nr + 4 * m < bound + 4 →
      word_nr + 4 * m ≤ data.length → word_nr + 4 * m < SIZE_MOD → m < fuel →
      crc_calcGanyXfeCrc_loop data bound fuel word_nr u32Crc
        = Outcome.ok ((List.range' word_nr m 4).foldl
            (fun s i => crc_calcGanyXfeCrc_body s (word_at data (i + 3)) (word_at data (i + 2))
              (word_at data (i + 1)) (word_at data i))
            u32Crc) := by
  intro m
  induction m with
  | zero =>
    intro fuel word_nr u32Crc hb _ _ _ hf
    obtain ⟨f, rfl⟩ : ∃ f, fuel = f + 1 := ⟨fuel - 1, by omega⟩
    have : ¬ word_nr < bound := by omega
    simp [crc_calcGanyXfeCrc_loop, this]
  | succ m ih =>
    intro fuel word_nr u32Crc hb hb2 hd hs hf
    obtain ⟨f, rfl⟩ : ∃ f, fuel = f + 1 := ⟨fuel - 1, by omega⟩
    have h1 : word_nr < bound := by omega
    have a0 : size_add word_nr 0 = word_nr := size_add_eq (by omega)
    have a1 : size_add word_nr 1 = word_nr + 1 := size_add_eq (by omega)
    have a2 : size_add word_nr 2 = word_nr + 2 := size_add_eq (by omega)
    have a3 : size_add word_nr 3 = word_nr + 3 := size_add_eq (by omega)
    have a4 : size_add word_nr 4 = word_nr + 4 := size_add_eq (by omega)
    have r0 : data[word_nr]? = some (word_at data word_nr) := getElem?_word_at (by omega)
    have r1 : data[word_nr + 1]? = some (word_at data (word_nr + 1)) :=
      getElem?_word_at (by omega)
    have r2 : data[word_nr + 2]? = some (word_at data (word_nr + 2)) :=
      getElem?_word_at (by omega)
    have r3 : data[word_nr + 3]? = some (word_at data (word_nr + 3)) :=
      getElem?_word_at (by omega)
    simp only [crc_calcGanyXfeCrc_loop, h1, if_true, a0, a1, a2, a3, a4, r0, r1, r2, r3]
    rw [ih f (word_nr + 4) _ (by omega) (by omega) (by omega) (by omega) (by omega)]
    simp [List.range'_succ]

/-- Folding over counter values below `p.length` only looks at `p`. -/
theorem foldl_range_congr {α : Type} (f g : α → Nat → α) :
    ∀ (l : List Nat) (a : α), (∀ s i, i ∈ l → f s i = g s i) → l.foldl f a = l.foldl g a := by
  intro l
  induction l with
  | nil => intro a _; rfl
  | cons x xs ih =>
    intro a h
    simp only [List.foldl_cons]
    rw [h a x (List.mem_cons_self _ _)]
    exact ih _ (fun s i hi => h s i (List.mem_cons_of_mem _ hi))

theorem word_at_append_left {p t : List Nat} {i : Nat} (h : i < p.length) :
    word_at (p ++ t) i = word_at p i := by
  unfold word_at
  simp [List.getD, List.getElem?_append_left h]

theorem size_sub_add_self (n k : Nat) : size_sub (n + k) k = n % SIZE_MOD := by
  unfold size_sub
  have h1 : n + k + SIZE_MOD - k = n + SIZE_MOD := by omega
  rw [h1, Nat.add_mod_right]

/-! ### Exclusion windows -/

/-- On a buffer `p ++ t` with declared length `p.length + 2` the linear CRC is a
fold over words of `p` alone. -/
theorem crc24_prefix (p t : List Nat) (seed : Nat) :
    crc_calc24bitCrc (p ++ t) (p.length + 2) seed
      = Outcome.ok (((List.range' 0 (p.length % SIZE_MOD)).foldl
          (fun s i => crc_calc24bitCrc_body s (word_at p i)) seed) &&& 0xFFFFFF) := by
  have hB : p.length % SIZE_MOD ≤ p.length := Nat.mod_le _ _
  have hlt : p.length % SIZE_MOD < SIZE_MOD := Nat.mod_lt _ (by unfold SIZE_MOD; positivity)
  rw [crc_calc24bitCrc, size_sub_add_self]
  rw [crc24_loop_eq (p ++ t) (p.length % SIZE_MOD) (p.length % SIZE_MOD) _ 0 seed (by omega)
    (by rw [List.length_append]; omega) hlt (by omega)]
  rw [crc_calc24bitCrc_return]
  have hfold := foldl_range_congr
    (fun s i => crc_calc24bitCrc_body s (word_at (p ++ t) i))
    (fun s i => crc_calc24bitCrc_body s (word_at p i))
    (List.range' 0 (p.length % SIZE_MOD)) seed (by
      intro s i hi
      rw [List.mem_range'] at hi
      obtain ⟨k, hk, rfl⟩ := hi
      simp only []
      rw [word_at_append_left (by omega)])
  rw [hfold]

/-- On a buffer `p ++ t` with `p` of even length and declared length
`p.length + 2` the KF CRC is a fold over words of `p` alone. -/
theorem kf_prefix (p t : List Nat) (seed : Nat) (hp : p.length % 2 = 0) :
    crc_calcGanyKfCrc (p ++ t) (p.length + 2) seed
      = Outcome.ok (((List.range' 0 (p.length % SIZE_MOD / 2) 2).foldl
          (fun s i => crc_calcGanyKfCrc_body s (word_at p (i + 1)) (word_at p i)) seed)
            &&& 0xFFFFFF) := by
  have hB : p.length % SIZE_MOD ≤ p.length := Nat.mod_le _ _
  have hlt : p.length % SIZE_MOD < SIZE_MOD := Nat.mod_lt _ (by unfold SIZE_MOD; positivity)
  have hev : p.length % SIZE_MOD % 2 = 0 := by
    rw [Nat.mod_mod_of_dvd _ (⟨2 ^ 63, by norm_num [SIZE_MOD]⟩ : 2 ∣ SIZE_MOD)]
    exact hp
  rw [crc_calcGanyKfCrc, size_sub_add_self]
  rw [kf_loop_eq (p ++ t) (p.length % SIZE_MOD) (p.length % SIZE_MOD / 2) _ 0 seed (by omega)
    (by omega) (by rw [List.length_append]; omega) (by omega) (by omega)]
  rw [crc_calcGanyKfCrc_return]
  have hfold := foldl_range_congr
    (fun s i => crc_calcGanyKfCrc_body s (word_at (p ++ t) (i + 1)) (word_at (p ++ t) i))
    (fun s i => crc_calcGanyKfCrc_body s (word_at p (i + 1)) (word_at p i))
    (List.range' 0 (p.length % SIZE_MOD / 2) 2) seed (by
      intro s i hi
      rw [List.mem_range'] at hi
      obtain ⟨k, hk, rfl⟩ := hi
      simp only []
      rw [word_at_append_left (by omega), word_at_append_left (by omega)])
  rw [hfold]

/-- On a buffer `p ++ t` with `p.length` a multiple of four and declared length
`p.length + 4` the XFE CRC is a fold over words of `p` alone. -/
theorem xfe_prefix (p t : List Nat) (seed : Nat) (hp : p.length % 4 = 0) :
    crc_calcGanyXfeCrc (p ++ t) (p.length + 4) seed
      = Outcome.ok ((List.range' 0 (p.length % SIZE_MOD / 4) 4).foldl
          (fun s i => crc_calcGanyXfeCrc_body s (word_at p (i + 3)) (word_at p (i + 2))
            (word_at p (i + 1)) (word_at p i)) seed) := by
  have hB : p.length % SIZE_MOD ≤ p.length := Nat.mod_le _ _
  have hlt : p.length % SIZE_MOD < SIZE_MOD := Nat.mod_lt _ (by unfold SIZE_MOD; positivity)
  have hev : p.length % SIZE_MOD % 4 = 0 := by
    rw [Nat.mod_mod_of_dvd _ (⟨2 ^ 62, by norm_num [SIZE_MOD]⟩ : 4 ∣ SIZE_MOD)]
    exact hp
  rw [crc_calcGanyXfeCrc, size_sub_add_self]
  rw [xfe_loop_eq (p ++ t) (p.length % SIZE_MOD) (p.length % SIZE_MOD / 4) _ 0 seed (by omega)
    (by omega) (by rw [List.length_append]; omega) (by omega) (by omega)]
  have hfold := foldl_range_congr
    (fun s i => crc_calcGanyXfeCrc_body s (word_at (p ++ t) (i + 3)) (word_at (p ++ t) (i + 2))
      (word_at (p ++ t) (i + 1)) (word_at (p ++ t) i))
    (fun s i => crc_calcGanyXfeCrc_body s (word_at p (i + 3)) (word_at p (i + 2))
      (word_at p (i + 1)) (word_at p i))
    (List.range' 0 (p.length % SIZE_MOD / 4) 4) seed (by
      intro s i hi
      rw [List.mem_range'] at hi
      obtain ⟨k, hk, rfl⟩ := hi
      simp only []
      rw [word_at_append_left (by omega), word_at_append_left (by omega),
        word_at_append_left (by omega), word_at_append_left (by omega)])
  rw [hfold]

/-- C1. Exclusion window of the linear CRC: whatever two words `a, b` or `c, d`
follow the words `p`, `crc_calc24bitCrc` called with length `p.length + 2` and
any seed returns, and returns the same CRC for both buffers. -/
theorem crc_calc24bitCrc_exclusion_window (p : List Nat) (seed a b c d : Nat) :
    ∃ v, crc_calc24bitCrc (p ++ [a, b]) (p.length + 2) seed = Outcome.ok v ∧
      crc_calc24bitCrc (p ++ [c, d]) (p.length + 2) seed = Outcome.ok v :=
  ⟨_, crc24_prefix p [a, b] seed, crc24_prefix p [c, d] seed⟩

/-- C2, as stated, fails for a prefix of odd length: with `p = [0]` the pair read
at `word_nr = 0` is `(data[1], data[0])`, and `data[1]` is the first trailing
word. -/
theorem crc_calcGanyKfCrc_exclusion_window_odd_fails :
    crc_calcGanyKfCrc ([0] ++ [1, 0]) (1 + 2) 0 = Outcome.ok 384 ∧
    crc_calcGanyKfCrc ([0] ++ [0, 0]) (1 + 2) 0 = Outcome.ok 0 ∧
    crc_calcGanyKfCrc ([0] ++ [1, 0]) (1 + 2) 0
      ≠ crc_calcGanyKfCrc ([0] ++ [0, 0]) (1 + 2) 0 := by
  decide

/-- C2, amended. Exclusion window of the KF CRC for a prefix `p` of even length:
whatever two words follow `p`, `crc_calcGanyKfCrc` called with length
`p.length + 2` and any seed returns, and returns the same CRC. -/
theorem crc_calcGanyKfCrc_exclusion_window_even (p : List Nat) (seed a b c d : Nat)
    (hp : p.length % 2 = 0) :
    ∃ v, crc_calcGanyKfCrc (p ++ [a, b]) (p.length + 2) seed = Outcome.ok v ∧
      crc_calcGanyKfCrc (p ++ [c, d]) (p.length + 2) seed = Outcome.ok v :=
  ⟨_, kf_prefix p [a, b] seed hp, kf_prefix p [c, d] seed hp⟩

theorem crc_calcGanyKfCrc_exclusion_window_even_witness :
    [0x1234, 0xABCD].length % 2 = 0 ∧
    ∃ v, crc_calcGanyKfCrc ([0x1234, 0xABCD] ++ [1, 2]) ([0x1234, 0xABCD].length + 2) 5
          = Outcome.ok v ∧
      crc_calcGanyKfCrc ([0x1234, 0xABCD] ++ [3, 4]) ([0x1234, 0xABCD].length + 2) 5
          = Outcome.ok v :=
  ⟨by decide, crc_calcGanyKfCrc_exclusion_window_even [0x1234, 0xABCD] 5 1 2 3 4 (by decide)⟩

/-- C3, as stated, fails for a prefix whose length is no multiple of four: with
`p = [0]` the group read at `word_nr = 0` is `data[0..3]`, and `data[1..3]` are
trailing words. -/
theorem crc_calcGanyXfeCrc_exclusion_window_partial_fails :
    crc_calcGanyXfeCrc ([0] ++ [1, 0, 0, 0]) (1 + 4) 0 = Outcome.ok 18 ∧
    crc_calcGanyXfeCrc ([0] ++ [0, 0, 0, 0]) (1 + 4) 0 = Outcome.ok 0 ∧
    crc_calcGanyXfeCrc ([0] ++ [1, 0, 0, 0]) (1 + 4) 0
      ≠ crc_calcGanyXfeCrc ([0] ++ [0, 0, 0, 0]) (1 + 4) 0 := by
  decide

/-- C3, amended. Exclusion window of the XFE CRC for a prefix `p` whose length is
a multiple of four: whatever four words follow `p`, `crc_calcGanyXfeCrc` called
with length `p.length + 4` and any seed returns, and returns the same CRC. -/
theorem crc_calcGanyXfeCrc_exclusion_window_groups (p : List Nat)
    (seed a1 a2 a3 a4 b1 b2 b3 b4 : Nat) (hp : p.length % 4 = 0) :
    ∃ v, crc_calcGanyXfeCrc (p ++ [a1, a2, a3, a4]) (p.length + 4) seed = Outcome.ok v ∧
      crc_calcGanyXfeCrc (p ++ [b1, b2, b3, b4]) (p.length + 4) seed = Outcome.ok v :=
  ⟨_, xfe_prefix p [a1, a2, a3, a4] seed hp, xfe_prefix p [b1, b2, b3, b4] seed hp⟩

theorem crc_calcGanyXfeCrc_exclusion_window_groups_witness :
    [1, 2, 3, 4].length % 4 = 0 ∧
    ∃ v, crc_calcGanyXfeCrc ([1, 2, 3, 4] ++ [5, 6, 7, 8]) ([1, 2, 3, 4].length + 4) 9
          = Outcome.ok v ∧
      crc_calcGanyXfeCrc ([1, 2, 3, 4] ++ [0, 0, 0, 0]) ([1, 2, 3, 4].length + 4) 9
          = Outcome.ok v :=
  ⟨by decide,
    crc_calcGanyXfeCrc_exclusion_window_groups [1, 2, 3, 4] 9 5 6 7 8 0 0 0 0 (by decide)⟩

/-! ### The 24-bit register: code against reference -/

theorem and_two_pow_ne_zero (s k : Nat) : (s &&& 2 ^ k ≠ 0) ↔ s.testBit k = true := by
  constructor
  · intro h
    obtain ⟨i, hi⟩ := Nat.ne_zero_implies_bit_true h
    rw [Nat.testBit_and, Nat.testBit_two_pow] at hi
    simp only [Bool.and_eq_true, decide_eq_true_eq] at hi
    rw [hi.2]; exact hi.1
  · intro h h0
    have := congrArg (fun x => Nat.testBit x k) h0
    simp [Nat.testBit_and, Nat.testBit_two_pow, h] at this

/-- The chain of four `if`s computes the XOR of bits 23, 22, 21 and 16. -/
theorem d0_chain (u : Nat) :
    (let c := u &&& 0xE10000
     let d0 := 0
     let d0 := if c &&& 0x800000 ≠ 0 then d0 ^^^ 1 else d0
     let d0 := if c &&& 0x400000 ≠ 0 then d0 ^^^ 1 else d0
     let d0 := if c &&& 0x200000 ≠ 0 then d0 ^^^ 1 else d0
     let d0 := if c &&& 0x010000 ≠ 0 then d0 ^^^ 1 else d0
     d0) = lfsr24_d0 u := by
  have h23 : u &&& 0xE10000 &&& 0x800000 = u &&& 2 ^ 23 := by rw [Nat.and_assoc]; rfl
  have h22 : u &&& 0xE10000 &&& 0x400000 = u &&& 2 ^ 22 := by rw [Nat.and_assoc]; rfl
  have h21 : u &&& 0xE10000 &&& 0x200000 = u &&& 2 ^ 21 := by rw [Nat.and_assoc]; rfl
  have h16 : u &&& 0xE10000 &&& 0x010000 = u &&& 2 ^ 16 := by rw [Nat.and_assoc]; rfl
  simp only [h23, h22, h21, h16, and_two_pow_ne_zero, lfsr24_d0]
  cases u.testBit 23 <;> cases u.testBit 22 <;> cases u.testBit 21 <;> cases u.testBit 16 <;> rfl

theorem crc_calc24bitCrc_body_eq (u w : Nat) :
    crc_calc24bitCrc_body u w = ((u <<< 1) % U32_MOD) ^^^ w ^^^ lfsr24_d0 u :=
  congrArg (fun d => ((u <<< 1) % U32_MOD) ^^^ w ^^^ d) (d0_chain u)

theorem crc_calcGanyKfCrc_body_eq (u w1 w0 : Nat) :
    crc_calcGanyKfCrc_body u w1 w0
      = ((u <<< 1) % U32_MOD) ^^^ compressor_by_2 ((w1 <<< 16) ||| w0) ^^^ lfsr24_d0 u :=
  congrArg (fun d => ((u <<< 1) % U32_MOD) ^^^ compressor_by_2 ((w1 <<< 16) ||| w0) ^^^ d)
    (d0_chain u)

theorem lfsr24_d0_mask (u : Nat) : lfsr24_d0 (u &&& 0xFFFFFF) = lfsr24_d0 u := by
  have hM : (0xFFFFFF : Nat) = 2 ^ 24 - 1 := by norm_num
  unfold lfsr24_d0
  rw [hM]
  simp only [Nat.testBit_and, Nat.testBit_two_pow_sub_one]
  simp

theorem lfsr24_d0_le_one (u : Nat) : lfsr24_d0 u ≤ 1 := by
  unfold lfsr24_d0
  exact Bool.toNat_le _

theorem testBit_lfsr24_d0 (u i : Nat) :
    (lfsr24_d0 u).testBit i = (decide (i = 0) && (xor (u.testBit 23) (xor (u.testBit 22)
      (xor (u.testBit 21) (u.testBit 16))))) := by
  unfold lfsr24_d0
  rw [Nat.testBit_bool_to_nat]

/-- Masking the 32-bit accumulator after a step equals stepping the masked accumulator. -/
theorem step24_mask (u x : Nat) :
    (((u <<< 1) % U32_MOD) ^^^ x ^^^ lfsr24_d0 u) &&& 0xFFFFFF
      = lfsr24_step (u &&& 0xFFFFFF) x := by
  have hM : (0xFFFFFF : Nat) = 2 ^ 24 - 1 := by norm_num
  unfold lfsr24_step
  rw [lfsr24_d0_mask]
  apply Nat.eq_of_testBit_eq
  intro i
  rw [hM]
  simp only [Nat.testBit_and, Nat.testBit_xor, Nat.testBit_two_pow_sub_one,
    Nat.testBit_shiftLeft, Nat.testBit_mod_two_pow, U32_MOD]
  by_cases h : i < 24
  · have h32 : i < 32 := by omega
    have h' : i - 1 < 24 := by omega
    simp [h, h32, h']
  · simp [h]

theorem lfsr24_step_lt (s x : Nat) : lfsr24_step s x < 2 ^ 24 := by
  unfold lfsr24_step
  exact Nat.and_lt_two_pow _ (by norm_num)

theorem and_mask24_of_lt {s : Nat} (h : s < 2 ^ 24) : s &&& 0xFFFFFF = s := by
  have hM : (0xFFFFFF : Nat) = 2 ^ 24 - 1 := by norm_num
  rw [hM]
  exact Nat.and_pow_two_sub_one_of_lt_two_pow h

/-- The unmasked 32-bit accumulator of the linear CRC, masked at the end, equals
the accumulator masked after every step. -/
theorem foldl_crc24_mask (g : Nat → Nat) :
    ∀ (l : List Nat) (u : Nat),
      (l.foldl (fun s i => crc_calc24bitCrc_body s (g i)) u) &&& 0xFFFFFF
        = l.foldl (fun s i => lfsr24_step s (g i)) (u &&& 0xFFFFFF) := by
  intro l
  induction l with
  | nil => intro u; rfl
  | cons i l ih =>
    intro u
    simp only [List.foldl_cons]
    rw [ih, crc_calc24bitCrc_body_eq, step24_mask]

/-- The same for the KF CRC, whose step is fed the compressed pair. -/
theorem foldl_kf_mask (g1 g0 : Nat → Nat) :
    ∀ (l : List Nat) (u : Nat),
      (l.foldl (fun s i => crc_calcGanyKfCrc_body s (g1 i) (g0 i)) u) &&& 0xFFFFFF
        = l.foldl (fun s i => lfsr24_step s (compressor_by_2 ((g1 i <<< 16) ||| g0 i)))
            (u &&& 0xFFFFFF) := by
  intro l
  induction l with
  | nil => intro u; rfl
  | cons i l ih =>
    intro u
    simp only [List.foldl_cons]
    rw [ih, crc_calcGanyKfCrc_body_eq, step24_mask]

theorem map_word_at_range' (data : List Nat) :
    ∀ (m k : Nat), k + m ≤ data.length →
      (List.range' k m).map (word_at data) = (data.drop k).take m := by
  intro m
  induction m with
  | zero => intro k _; simp
  | succ m ih =>
    intro k h
    have hk : k < data.length := by omega
    rw [List.range'_succ, List.map_cons, ih (k + 1) (by omega), List.drop_eq_getElem_cons hk,
      List.take_succ_cons]
    congr 1
    unfold word_at
    simp [List.getD, List.getElem?_eq_getElem hk]

theorem foldl_word_at_range' (f : Nat → Nat → Nat) (data : List Nat) (m s : Nat)
    (h : m ≤ data.length) :
    (List.range' 0 m).foldl (fun s i => f s (word_at data i)) s = (data.take m).foldl f s := by
  have := map_word_at_range' data m 0 (by omega)
  rw [List.drop_zero] at this
  rw [← this, List.foldl_map]

/-- The linear CRC on a buffer of valid length, as a masked fold over the scanned words. -/
theorem crc_calc24bitCrc_eq_fold (data : List Nat) (n seed : Nat)
    (hlen : data.length = n) (hn : 2 ≤ n) (hsz : n < 2 ^ 64) :
    crc_calc24bitCrc data n seed
      = Outcome.ok ((data.take (n - 2)).foldl lfsr24_step (seed &&& 0xFFFFFF)) := by
  have hb : size_sub n 2 = n - 2 := size_sub_eq hn (by unfold SIZE_MOD; omega)
  rw [crc_calc24bitCrc, hb]
  rw [crc24_loop_eq data (n - 2) (n - 2) _ 0 seed (by omega) (by omega)
    (by unfold SIZE_MOD; omega) (by omega)]
  rw [crc_calc24bitCrc_return, foldl_crc24_mask (word_at data),
    foldl_word_at_range' lfsr24_step data (n - 2) _ (by omega)]

theorem testBit_lfsr24_step (s x i : Nat) :
    (lfsr24_step s x).testBit i
      = (decide (i < 24) && (xor (xor (decide (1 ≤ i) && s.testBit (i - 1)) (x.testBit i))
          (decide (i = 0) && (xor (s.testBit 23) (xor (s.testBit 22)
            (xor (s.testBit 21) (s.testBit 16))))))) := by
  have hM : (0xFFFFFF : Nat) = 2 ^ 24 - 1 := by norm_num
  unfold lfsr24_step
  rw [hM, Nat.testBit_and, Nat.testBit_two_pow_sub_one, Nat.testBit_xor, Nat.testBit_xor,
    Nat.testBit_shiftLeft, testBit_lfsr24_d0, Bool.and_comm]

theorem foldl_lfsr24_lt (g : Nat → Nat) :
    ∀ (l : List Nat) (s : Nat), s < 2 ^ 24 →
      l.foldl (fun s i => lfsr24_step s (g i)) s < 2 ^ 24 := by
  intro l
  induction l with
  | nil => intro s hs; exact hs
  | cons i l ih => intro s _; exact ih _ (lfsr24_step_lt _ _)

/-- The 24-bit step is injective in the state, for every input word. -/
theorem lfsr24_step_inj {a b : Nat} (x : Nat) (ha : a < 2 ^ 24) (hb : b < 2 ^ 24)
    (h : lfsr24_step a x = lfsr24_step b x) : a = b := by
  have hbit : ∀ i, (lfsr24_step a x).testBit i = (lfsr24_step b x).testBit i := by
    intro i; rw [h]
  have low : ∀ j, j < 23 → a.testBit j = b.testBit j := by
    intro j hj
    have := hbit (j + 1)
    rw [testBit_lfsr24_step, testBit_lfsr24_step] at this
    have h1 : j + 1 < 24 := by omega
    simpa [h1] using this
  have h0 := hbit 0
  rw [testBit_lfsr24_step, testBit_lfsr24_step] at h0
  simp only [Nat.lt_add_one, Nat.ofNat_pos, decide_True, Bool.true_and] at h0
  rw [low 22 (by omega), low 21 (by omega), low 16 (by omega)] at h0
  have h23 : a.testBit 23 = b.testBit 23 := by
    revert h0
    simp
  apply Nat.eq_of_testBit_eq
  intro i
  by_cases hi : i < 23
  · exact low i hi
  · by_cases hi' : i = 23
    · rw [hi']; exact h23
    · have h24 : 2 ^ 24 ≤ 2 ^ i := Nat.pow_le_pow_right (by norm_num) (by omega)
      rw [Nat.testBit_lt_two_pow (lt_of_lt_of_le ha h24),
        Nat.testBit_lt_two_pow (lt_of_lt_of_le hb h24)]

theorem foldl_lfsr24_inj (g : Nat → Nat) :
    ∀ (l : List Nat) (a b : Nat), a < 2 ^ 24 → b < 2 ^ 24 →
      l.foldl (fun s i => lfsr24_step s (g i)) a = l.foldl (fun s i => lfsr24_step s (g i)) b →
      a = b := by
  intro l
  induction l with
  | nil => intro a b _ _ h; exact h
  | cons i l ih =>
    intro a b ha hb h
    exact lfsr24_step_inj (g i) ha hb
      (ih _ _ (lfsr24_step_lt _ _) (lfsr24_step_lt _ _) h)

/-- C8. The linear CRC equals the per-step-masked reference: on a buffer of `n ≥ 2`
words and a seed below `2 ^ 24`, `crc_calc24bitCrc` returns the left fold of the
masked 24-bit step over the words `data[0..n-3]`, starting from the seed, and
that value is below `2 ^ 24`; masking the 32-bit accumulator once on return gives
the same value as masking after every step. -/
theorem crc_calc24bitCrc_eq_masked_reference (data : List Nat) (n seed : Nat)
    (hlen : data.length = n) (hn : 2 ≤ n) (hsz : n < 2 ^ 64) (hseed : seed < 2 ^ 24) :
    crc_calc24bitCrc data n seed = Outcome.ok ((data.take (n - 2)).foldl lfsr24_step seed) ∧
      (data.take (n - 2)).foldl lfsr24_step seed < 2 ^ 24 := by
  constructor
  · rw [crc_calc24bitCrc_eq_fold data n seed hlen hn hsz, and_mask24_of_lt hseed]
  · exact foldl_lfsr24_lt (fun i => i) _ _ hseed

theorem crc_calc24bitCrc_eq_masked_reference_witness :
    [0x1234, 0xFFFF, 0xABCD, 7, 9].length = 5 ∧ 2 ≤ 5 ∧ 5 < 2 ^ 64 ∧ 0xFEDCBA < 2 ^ 24 ∧
    crc_calc24bitCrc [0x1234, 0xFFFF, 0xABCD, 7, 9] 5 0xFEDCBA
      = Outcome.ok (([0x1234, 0xFFFF, 0xABCD, 7, 9].take (5 - 2)).foldl lfsr24_step 0xFEDCBA) ∧
    ([0x1234, 0xFFFF, 0xABCD, 7, 9].take (5 - 2)).foldl lfsr24_step 0xFEDCBA < 2 ^ 24 :=
  ⟨rfl, by decide, by decide, by decide,
    crc_calc24bitCrc_eq_masked_reference [0x1234, 0xFFFF, 0xABCD, 7, 9] 5 0xFEDCBA rfl
      (by decide) (by decide) (by decide)⟩

/-- C6. Seed sensitivity of the linear CRC: on a buffer of `n ≥ 2` words, two
distinct seeds below `2 ^ 24` give two returned CRCs that differ. -/
theorem crc_calc24bitCrc_seed_injective (data : List Nat) (n s1 s2 : Nat)
    (hlen : data.length = n) (hn : 2 ≤ n) (hsz : n < 2 ^ 64)
    (h1 : s1 < 2 ^ 24) (h2 : s2 < 2 ^ 24) (hne : s1 ≠ s2) :
    ∃ v1 v2, crc_calc24bitCrc data n s1 = Outcome.ok v1 ∧
      crc_calc24bitCrc data n s2 = Outcome.ok v2 ∧ v1 ≠ v2 := by
  refine ⟨_, _, crc_calc24bitCrc_eq_fold data n s1 hlen hn hsz,
    crc_calc24bitCrc_eq_fold data n s2 hlen hn hsz, ?_⟩
  rw [and_mask24_of_lt h1, and_mask24_of_lt h2]
  intro h
  exact hne (foldl_lfsr24_inj (fun i => i) _ s1 s2 h1 h2 h)

theorem crc_calc24bitCrc_seed_injective_witness :
    [1, 2, 3, 4].length = 4 ∧ 2 ≤ 4 ∧ 4 < 2 ^ 64 ∧ 0 < 2 ^ 24 ∧ 0x800000 < 2 ^ 24 ∧
    0 ≠ 0x800000 ∧
    ∃ v1 v2, crc_calc24bitCrc [1, 2, 3, 4] 4 0 = Outcome.ok v1 ∧
      crc_calc24bitCrc [1, 2, 3, 4] 4 0x800000 = Outcome.ok v2 ∧ v1 ≠ v2 :=
  ⟨rfl, by decide, by decide, by decide, by decide, by decide,
    crc_calc24bitCrc_seed_injective [1, 2, 3, 4] 4 0 0x800000 rfl (by decide) (by decide)
      (by decide) (by decide) (by decide)⟩

theorem pack_pair_eq {w1 w0 : Nat} (h0 : w0 < 2 ^ 16) : (w1 <<< 16) ||| w0 = w1 * 2 ^ 16 + w0 := by
  rw [Nat.shiftLeft_eq, Nat.mul_comm, Nat.mul_add_lt_is_or h0]

theorem word_at_lt {data : List Nat} (hw : ∀ w ∈ data, w < 2 ^ 16) {i : Nat}
    (hi : i < data.length) : word_at data i < 2 ^ 16 := by
  have : word_at data i = data[i] := by
    unfold word_at
    simp [List.getD, List.getElem?_eq_getElem hi]
  rw [this]
  exact hw _ (List.getElem_mem hi)

/-- The KF CRC on a buffer of valid length, with at most one word past the bound
read, as a masked fold over the counter values. -/
theorem crc_calcGanyKfCrc_eq_fold (data : List Nat) (n seed : Nat)
    (hlen : data.length = n) (hn : 2 ≤ n) (hsz : n < 2 ^ 64) :
    crc_calcGanyKfCrc data n seed
      = Outcome.ok ((List.range' 0 ((n - 1) / 2) 2).foldl
          (fun s i => lfsr24_step s
            (compressor_by_2 ((word_at data (i + 1) <<< 16) ||| word_at data i)))
          (seed &&& 0xFFFFFF)) := by
  have hb : size_sub n 2 = n - 2 := size_sub_eq hn (by unfold SIZE_MOD; omega)
  rw [crc_calcGanyKfCrc, hb]
  rw [kf_loop_eq data (n - 2) ((n - 1) / 2) _ 0 seed (by omega) (by omega) (by omega)
    (by unfold SIZE_MOD; omega) (by omega)]
  rw [crc_calcGanyKfCrc_return,
    foldl_kf_mask (fun i => word_at data (i + 1)) (fun i => word_at data i)]

/-- C9. The KF CRC is the 24-bit register of the linear CRC driven by compressed
pairs: on a buffer of even length `n ≥ 2` of 16-bit words and a seed below
`2 ^ 24`, `crc_calcGanyKfCrc` returns the left fold, over `i = 0, 2, .., n - 4`
and starting from the seed, of the masked 24-bit step fed
`compressor_by_2 (data[i+1] * 2 ^ 16 + data[i])`. -/
theorem crc_calcGanyKfCrc_eq_reference (data : List Nat) (n seed : Nat)
    (hlen : data.length = n) (hn : 2 ≤ n) (heven : n % 2 = 0) (hsz : n < 2 ^ 64)
    (hseed : seed < 2 ^ 24) (hw : ∀ w ∈ data, w < 2 ^ 16) :
    crc_calcGanyKfCrc data n seed
      = Outcome.ok ((List.range' 0 ((n - 2) / 2) 2).foldl
          (fun s i => lfsr24_step s
            (compressor_by_2 (word_at data (i + 1) * 2 ^ 16 + word_at data i))) seed) := by
  have hm : (n - 1) / 2 = (n - 2) / 2 := by omega
  rw [crc_calcGanyKfCrc_eq_fold data n seed hlen hn hsz, and_mask24_of_lt hseed, hm]
  have hfold := foldl_range_congr
    (fun s i => lfsr24_step s
      (compressor_by_2 ((word_at data (i + 1) <<< 16) ||| word_at data i)))
    (fun s i => lfsr24_step s
      (compressor_by_2 (word_at data (i + 1) * 2 ^ 16 + word_at data i)))
    (List.range' 0 ((n - 2) / 2) 2) seed (by
      intro s i hi
      rw [List.mem_range'] at hi
      obtain ⟨k, hk, rfl⟩ := hi
      simp only []
      rw [pack_pair_eq (word_at_lt hw (by omega))])
  rw [hfold]

theorem crc_calcGanyKfCrc_eq_reference_witness :
    [0x1234, 0xFFFF, 0xABCD, 7, 9, 10].length = 6 ∧ 2 ≤ 6 ∧ 6 % 2 = 0 ∧ 6 < 2 ^ 64 ∧
    0xFEDCBA < 2 ^ 24 ∧ (∀ w ∈ [0x1234, 0xFFFF, 0xABCD, 7, 9, 10], w < 2 ^ 16) ∧
    crc_calcGanyKfCrc [0x1234, 0xFFFF, 0xABCD, 7, 9, 10] 6 0xFEDCBA
      = Outcome.ok ((List.range' 0 ((6 - 2) / 2) 2).foldl
          (fun s i => lfsr24_step s
            (compressor_by_2 (word_at [0x1234, 0xFFFF, 0xABCD, 7, 9, 10] (i + 1) * 2 ^ 16
              + word_at [0x1234, 0xFFFF, 0xABCD, 7, 9, 10] i))) 0xFEDCBA) :=
  ⟨rfl, by decide, by decide, by decide, by decide, by decide,
    crc_calcGanyKfCrc_eq_reference [0x1234, 0xFFFF, 0xABCD, 7, 9, 10] 6 0xFEDCBA rfl
      (by decide) (by decide) (by decide) (by decide) (by decide)⟩

/-! ### KF CRC against linear CRC on four words -/

theorem compressor_by_2_body_lt (data : Nat) :
    ∀ (l : List Nat) (acc : Nat), acc < 2 ^ 20 → (∀ i ∈ l, i / 2 < 20) →
      l.foldl (compressor_by_2_body data) acc < 2 ^ 20 := by
  intro l
  induction l with
  | nil => intro acc h _; exact h
  | cons i l ih =>
    intro acc h hl
    apply ih
    · unfold compressor_by_2_body
      apply Nat.or_lt_two_pow h
      have hi : i / 2 < 20 := hl i (List.mem_cons_self _ _)
      have hb : (data >>> i &&& 1 ^^^ data >>> (i + 1) &&& 1 ^^^ data >>> (i + 2) &&& 1) < 2 ^ 1 :=
        Nat.xor_lt_two_pow (Nat.xor_lt_two_pow (Nat.and_lt_two_pow _ (by norm_num))
          (Nat.and_lt_two_pow _ (by norm_num))) (Nat.and_lt_two_pow _ (by norm_num))
      rw [Nat.shiftLeft_eq]
      calc _ < 2 ^ 1 * 2 ^ (i / 2) := Nat.mul_lt_mul_of_pos_right hb (by positivity)
        _ = 2 ^ (1 + i / 2) := by rw [← Nat.pow_add]
        _ ≤ 2 ^ 20 := Nat.pow_le_pow_right (by norm_num) (by omega)
    · intro j hj
      exact hl j (List.mem_cons_of_mem _ hj)

/-- The compressed pair is a 20-bit value. -/
theorem compressor_by_2_lt (data : Nat) : compressor_by_2 data < 2 ^ 20 := by
  unfold compressor_by_2
  apply Nat.or_lt_two_pow
  · apply compressor_by_2_body_lt data _ 0 (by norm_num)
    intro i hi
    rw [List.mem_range'] at hi
    obtain ⟨k, hk, rfl⟩ := hi
    omega
  · have hb : (data >>> 38 &&& 1 ^^^ data >>> 39 &&& 1 ^^^ data &&& 1) < 2 ^ 1 :=
      Nat.xor_lt_two_pow (Nat.xor_lt_two_pow (Nat.and_lt_two_pow _ (by norm_num))
        (Nat.and_lt_two_pow _ (by norm_num))) (Nat.and_lt_two_pow _ (by norm_num))
    rw [Nat.shiftLeft_eq]
    calc _ < 2 ^ 1 * 2 ^ 19 := Nat.mul_lt_mul_of_pos_right hb (by positivity)
      _ = 2 ^ 20 := by norm_num

/-- The input word enters the 24-bit step by a plain XOR. -/
theorem lfsr24_step_input (s x : Nat) :
    lfsr24_step s x = lfsr24_step s 0 ^^^ (x &&& 0xFFFFFF) := by
  have hM : (0xFFFFFF : Nat) = 2 ^ 24 - 1 := by norm_num
  apply Nat.eq_of_testBit_eq
  intro i
  rw [Nat.testBit_xor, testBit_lfsr24_step, testBit_lfsr24_step, hM, Nat.testBit_and,
    Nat.testBit_two_pow_sub_one]
  by_cases h : i < 24
  · simp only [h, decide_True, Bool.true_and, Nat.zero_testBit, Bool.xor_false]
    generalize (decide (1 ≤ i) && s.testBit (i - 1)) = p
    generalize (decide (i = 0) && (xor (s.testBit 23) (xor (s.testBit 22)
      (xor (s.testBit 21) (s.testBit 16))))) = q
    cases p <;> cases q <;> cases x.testBit i <;> rfl
  · simp [h]

/-- The 24-bit step on the zero word is linear in the state. -/
theorem lfsr24_step_xor (a b : Nat) :
    lfsr24_step (a ^^^ b) 0 = lfsr24_step a 0 ^^^ lfsr24_step b 0 := by
  apply Nat.eq_of_testBit_eq
  intro i
  rw [Nat.testBit_xor, testBit_lfsr24_step, testBit_lfsr24_step, testBit_lfsr24_step]
  simp only [Nat.testBit_xor, Nat.zero_testBit, Bool.xor_false]
  by_cases h : i < 24 <;> by_cases h0 : i = 0 <;> by_cases h1 : 1 ≤ i <;> simp [h, h0, h1]
  all_goals
    cases a.testBit 23 <;> cases a.testBit 22 <;> cases a.testBit 21 <;> cases a.testBit 16 <;>
    cases b.testBit 23 <;> cases b.testBit 22 <;> cases b.testBit 21 <;> cases b.testBit 16 <;>
    simp

/-- A 16-bit state is only shifted by the 24-bit step on the zero word. -/
theorem lfsr24_step_word {w : Nat} (hw : w < 2 ^ 16) : lfsr24_step w 0 = 2 * w := by
  have hbig : ∀ j, 16 ≤ j → w.testBit j = false := by
    intro j hj
    exact Nat.testBit_lt_two_pow (lt_of_lt_of_le hw (Nat.pow_le_pow_right (by norm_num) hj))
  apply Nat.eq_of_testBit_eq
  intro i
  have h2 : 2 * w = w <<< 1 := by rw [Nat.shiftLeft_eq]; omega
  rw [testBit_lfsr24_step, h2, Nat.testBit_shiftLeft, hbig 23 (by omega), hbig 22 (by omega),
    hbig 21 (by omega), hbig 16 (by omega)]
  by_cases h : i < 24
  · simp [h]
  · have : w.testBit (i - 1) = false := hbig _ (by omega)
    simp [h, this]

theorem xor_eq_xor_iff (a b c d : Nat) : (a ^^^ b = c ^^^ d) ↔ (b ^^^ d = a ^^^ c) := by
  rw [← Nat.xor_eq_zero, ← Nat.xor_eq_zero (n := b ^^^ d)]
  have : a ^^^ b ^^^ (c ^^^ d) = b ^^^ d ^^^ (a ^^^ c) := by ac_rfl
  rw [this]

/-- C5, as stated, fails: the trailing bit of `data[1]` passes through the
compressor unchanged, so the two CRCs of `[0, 0x8000, 0, 0]` with seed 0 agree. -/
theorem kf_equals_linear_on_nontrivial_input :
    ¬ ((0 : Nat) = 0 ∧ (0x8000 : Nat) = 0) ∧ (0 : Nat) < 2 ^ 24 ∧
    crc_calcGanyKfCrc [0, 0x8000, 0, 0] 4 0 = Outcome.ok 0x8000 ∧
    crc_calc24bitCrc [0, 0x8000, 0, 0] 4 0 = Outcome.ok 0x8000 := by
  decide

/-- C5, amended. On a 4-word buffer with 16-bit scanned words `w0, w1` and a seed
below `2 ^ 24` both CRCs return, and they differ exactly when
`compressor_by_2 (w1 * 2 ^ 16 + w0) XOR 2 * w0 XOR w1` differs from `t XOR t'`,
where `t` is the seed stepped once on the zero word and `t'` is `t` stepped once
more on the zero word. -/
theorem kf_differs_from_linear_iff (w0 w1 w2 w3 seed : Nat)
    (h0 : w0 < 2 ^ 16) (h1 : w1 < 2 ^ 16) (hseed : seed < 2 ^ 24) :
    ∃ k l, crc_calcGanyKfCrc [w0, w1, w2, w3] 4 seed = Outcome.ok k ∧
      crc_calc24bitCrc [w0, w1, w2, w3] 4 seed = Outcome.ok l ∧
      (k ≠ l ↔ compressor_by_2 (w1 * 2 ^ 16 + w0) ^^^ (2 * w0) ^^^ w1
          ≠ lfsr24_step seed 0 ^^^ lfsr24_step (lfsr24_step seed 0) 0) := by
  have hk := crc_calcGanyKfCrc_eq_fold [w0, w1, w2, w3] 4 seed rfl (by decide) (by decide)
  have hl := crc_calc24bitCrc_eq_fold [w0, w1, w2, w3] 4 seed rfl (by decide) (by decide)
  have e1 : List.range' 0 ((4 - 1) / 2) 2 = [0] := rfl
  have e2 : List.take (4 - 2) [w0, w1, w2, w3] = [w0, w1] := rfl
  have e3 : word_at [w0, w1, w2, w3] (0 + 1) = w1 := rfl
  have e4 : word_at [w0, w1, w2, w3] 0 = w0 := rfl
  rw [e1, and_mask24_of_lt hseed] at hk
  rw [e2, and_mask24_of_lt hseed] at hl
  simp only [List.foldl_cons, List.foldl_nil] at hk hl
  rw [e3, e4, pack_pair_eq h0] at hk
  refine ⟨_, _, hk, hl, ?_⟩
  have hC : compressor_by_2 (w1 * 2 ^ 16 + w0) &&& 0xFFFFFF = compressor_by_2 (w1 * 2 ^ 16 + w0) :=
    and_mask24_of_lt (lt_trans (compressor_by_2_lt _) (by norm_num))
  have hw0 : w0 &&& 0xFFFFFF = w0 := and_mask24_of_lt (lt_trans h0 (by norm_num))
  have hw1 : w1 &&& 0xFFFFFF = w1 := and_mask24_of_lt (lt_trans h1 (by norm_num))
  rw [lfsr24_step_input seed (compressor_by_2 _), hC, lfsr24_step_input _ w1, hw1,
    lfsr24_step_input seed w0, hw0, lfsr24_step_xor, lfsr24_step_word h0]
  rw [not_iff_not, Nat.xor_assoc, Nat.xor_assoc, xor_eq_xor_iff]

theorem kf_differs_from_linear_iff_witness :
    (1 : Nat) < 2 ^ 16 ∧ (0 : Nat) < 2 ^ 16 ∧ (0 : Nat) < 2 ^ 24 ∧
    ∃ k l, crc_calcGanyKfCrc [1, 0, 0, 0] 4 0 = Outcome.ok k ∧
      crc_calc24bitCrc [1, 0, 0, 0] 4 0 = Outcome.ok l ∧
      (k ≠ l ↔ compressor_by_2 (0 * 2 ^ 16 + 1) ^^^ (2 * 1) ^^^ 0
          ≠ lfsr24_step 0 0 ^^^ lfsr24_step (lfsr24_step 0 0) 0) :=
  ⟨by decide, by decide, by decide,
    kf_differs_from_linear_iff 1 0 0 0 0 (by decide) (by decide) (by decide)⟩

/-! ### The 18-bit register: code against reference -/

theorem testBit_lfsr18_d0 (u i : Nat) :
    (lfsr18_d0 u).testBit i = (decide (i = 0) && (xor (u.testBit 17) (u.testBit 6))) := by
  unfold lfsr18_d0
  rw [Nat.testBit_bool_to_nat]

theorem testBit_lfsr18_step (s c i : Nat) :
    (lfsr18_step s c).testBit i
      = (decide (i < 18) && (xor (xor (decide (1 ≤ i) && s.testBit (i - 1)) (c.testBit i))
          (decide (i = 0) && (xor (s.testBit 17) (s.testBit 6))))) := by
  have hM : (0x3FFFF : Nat) = 2 ^ 18 - 1 := by norm_num
  unfold lfsr18_step
  rw [hM, Nat.testBit_and, Nat.testBit_two_pow_sub_one, Nat.testBit_xor, Nat.testBit_xor,
    Nat.testBit_shiftLeft, testBit_lfsr18_d0, Bool.and_comm]

theorem lfsr18_step_lt (s c : Nat) : lfsr18_step s c < 2 ^ 18 := by
  unfold lfsr18_step
  exact Nat.and_lt_two_pow _ (by norm_num)

/-- The body of the XFE loop is the reference 18-bit step fed the compressed
window. -/
theorem crc_calcGanyXfeCrc_body_eq (u w3 w2 w1 w0 : Nat) :
    crc_calcGanyXfeCrc_body u w3 w2 w1 w0
      = lfsr18_step u (compressor_by_4 [0, w3, w2, w1, w0]) := by
  have hM : (0x3FFFF : Nat) = 2 ^ 18 - 1 := by norm_num
  have hd : ((if u &&& 0x20000 ≠ 0 then 1 else 0) ^^^ (if u &&& 0x40 ≠ 0 then 1 else 0))
      = lfsr18_d0 u := by
    have h17 : u &&& 0x20000 = u &&& 2 ^ 17 := rfl
    have h6 : u &&& 0x40 = u &&& 2 ^ 6 := rfl
    simp only [h17, h6, and_two_pow_ne_zero, lfsr18_d0]
    cases u.testBit 17 <;> cases u.testBit 6 <;> rfl
  have hbody : crc_calcGanyXfeCrc_body u w3 w2 w1 w0
      = (((u <<< 1) % U32_MOD) ^^^ compressor_by_4 [0, w3, w2, w1, w0] ^^^ lfsr18_d0 u)
          &&& 0x3FFFF :=
    congrArg (fun d => (((u <<< 1) % U32_MOD) ^^^ compressor_by_4 [0, w3, w2, w1, w0] ^^^ d)
      &&& 0x3FFFF) hd
  rw [hbody]
  apply Nat.eq_of_testBit_eq
  intro i
  rw [testBit_lfsr18_step, hM]
  simp only [Nat.testBit_and, Nat.testBit_xor, Nat.testBit_two_pow_sub_one,
    Nat.testBit_shiftLeft, Nat.testBit_mod_two_pow, U32_MOD, testBit_lfsr18_d0]
  by_cases h : i < 18
  · have h32 : i < 32 := by omega
    simp only [h, h32, decide_True, Bool.true_and, Bool.and_true]
  · simp [h]

/-- The 18-bit step is injective in the state, for every compressed word. -/
theorem lfsr18_step_inj {a b : Nat} (c : Nat) (ha : a < 2 ^ 18) (hb : b < 2 ^ 18)
    (h : lfsr18_step a c = lfsr18_step b c) : a = b := by
  have hbit : ∀ i, (lfsr18_step a c).testBit i = (lfsr18_step b c).testBit i := by
    intro i; rw [h]
  have low : ∀ j, j < 17 → a.testBit j = b.testBit j := by
    intro j hj
    have := hbit (j + 1)
    rw [testBit_lfsr18_step, testBit_lfsr18_step] at this
    have h1 : j + 1 < 18 := by omega
    simpa [h1] using this
  have h0 := hbit 0
  rw [testBit_lfsr18_step, testBit_lfsr18_step] at h0
  simp only [Nat.ofNat_pos, decide_True, Bool.true_and] at h0
  rw [low 6 (by omega)] at h0
  have h17 : a.testBit 17 = b.testBit 17 := by
    revert h0
    simp
  apply Nat.eq_of_testBit_eq
  intro i
  by_cases hi : i < 17
  · exact low i hi
  · by_cases hi' : i = 17
    · rw [hi']; exact h17
    · have h18 : 2 ^ 18 ≤ 2 ^ i := Nat.pow_le_pow_right (by norm_num) (by omega)
      rw [Nat.testBit_lt_two_pow (lt_of_lt_of_le ha h18),
        Nat.testBit_lt_two_pow (lt_of_lt_of_le hb h18)]

theorem foldl_lfsr18_inj (g : Nat → Nat) :
    ∀ (l : List Nat) (a b : Nat), a < 2 ^ 18 → b < 2 ^ 18 →
      l.foldl (fun s i => lfsr18_step s (g i)) a = l.foldl (fun s i => lfsr18_step s (g i)) b →
      a = b := by
  intro l
  induction l with
  | nil => intro a b _ _ h; exact h
  | cons i l ih =>
    intro a b ha hb h
    exact lfsr18_step_inj (g i) ha hb
      (ih _ _ (lfsr18_step_lt _ _) (lfsr18_step_lt _ _) h)

/-- The XFE CRC on a buffer of valid length, as a fold of the reference step over
the counter values `0, 4, ..` below `n - 4`. -/
theorem crc_calcGanyXfeCrc_eq_fold (data : List Nat) (n seed : Nat)
    (hlen : data.length = n) (hn : 4 ≤ n) (hsz : n < 2 ^ 64) :
    crc_calcGanyXfeCrc data n seed
      = Outcome.ok ((List.range' 0 ((n - 1) / 4) 4).foldl
          (fun s i => lfsr18_step s (compressor_by_4 [0, word_at data (i + 3),
            word_at data (i + 2), word_at data (i + 1), word_at data i])) seed) := by
  have hb : size_sub n 4 = n - 4 := size_sub_eq hn (by unfold SIZE_MOD; omega)
  rw [crc_calcGanyXfeCrc, hb]
  rw [xfe_loop_eq data (n - 4) ((n - 1) / 4) _ 0 seed (by omega) (by omega) (by omega)
    (by unfold SIZE_MOD; omega) (by omega)]
  have hfold := foldl_range_congr
    (fun s i => crc_calcGanyXfeCrc_body s (word_at data (i + 3)) (word_at data (i + 2))
      (word_at data (i + 1)) (word_at data i))
    (fun s i => lfsr18_step s (compressor_by_4 [0, word_at data (i + 3),
      word_at data (i + 2), word_at data (i + 1), word_at data i]))
    (List.range' 0 ((n - 1) / 4) 4) seed (by
      intro s i _
      exact crc_calcGanyXfeCrc_body_eq _ _ _ _ _)
  rw [hfold]

/-! ### The XFE compressor, bit by bit -/

theorem testBit_two_mul_add_zero (a : Nat) (b : Bool) : (2 * a + b.toNat).testBit 0 = b := by
  rw [Nat.testBit_zero]
  cases b <;> simp [Nat.add_mod]

theorem testBit_two_mul_add_succ (a : Nat) (b : Bool) (j : Nat) :
    (2 * a + b.toNat).testBit (j + 1) = a.testBit j := by
  rw [Nat.testBit_succ]
  have : (2 * a + b.toNat) / 2 = a := by
    have := Bool.toNat_le b
    omega
  rw [this]

/-- Shifting one bit in at the bottom for every element of a list: the bits of
the start value move up by the length of the list. -/
theorem foldl_shift_in_high {α : Type} (b : α → Bool) :
    ∀ (rs : List α) (acc j : Nat),
      (rs.foldl (fun acc row => 2 * acc + (b row).toNat) acc).testBit (rs.length + j)
        = acc.testBit j := by
  intro rs
  induction rs with
  | nil => intro acc j; simp
  | cons row rs ih =>
    intro acc j
    rw [List.foldl_cons, List.length_cons]
    have : rs.length + 1 + j = rs.length + (j + 1) := by omega
    rw [this, ih, testBit_two_mul_add_succ]

/-- Shifting one bit in at the bottom for every element of a list: the element at
position `r` lands at bit `length - 1 - r`. -/
theorem foldl_shift_in_low {α : Type} (b : α → Bool) (d : α) :
    ∀ (rs : List α) (acc r : Nat), r < rs.length →
      (rs.foldl (fun acc row => 2 * acc + (b row).toNat) acc).testBit (rs.length - 1 - r)
        = b (rs.getD r d) := by
  intro rs
  induction rs with
  | nil => intro acc r h; simp at h
  | cons row rs ih =>
    intro acc r h
    rw [List.foldl_cons, List.length_cons]
    cases r with
    | zero =>
      have : rs.length + 1 - 1 - 0 = rs.length + 0 := by omega
      rw [this, foldl_shift_in_high, testBit_two_mul_add_zero]
      rfl
    | succ r =>
      have hr : r < rs.length := by simpa using h
      have : rs.length + 1 - 1 - (r + 1) = rs.length - 1 - r := by omega
      rw [this, ih _ r hr]
      rfl

theorem ite_one_zero_eq_toNat (P : Prop) [Decidable P] :
    (if P then 1 else 0) = (decide P).toNat := by
  by_cases h : P <;> simp [h]

theorem compressor_by_4_sel_eq (W : List Nat) (row : List (Nat × Nat)) (k : Nat) :
    compressor_by_4_sel W row k = (xfe_selected W (row.getD k (0, 0))).toNat :=
  ite_one_zero_eq_toNat _

theorem bool_toNat_xor (p q : Bool) : p.toNat ^^^ q.toNat = (xor p q).toNat := by
  cases p <;> cases q <;> rfl

/-- On a row of seven entries the C expression of seven selections is the parity
of the row. -/
theorem compressor_by_4_parity (W : List Nat) (e0 e1 e2 e3 e4 e5 e6 : Nat × Nat) :
    ((compressor_by_4_sel W [e0, e1, e2, e3, e4, e5, e6] 0 ^^^
      compressor_by_4_sel W [e0, e1, e2, e3, e4, e5, e6] 1 ^^^
      compressor_by_4_sel W [e0, e1, e2, e3, e4, e5, e6] 2 ^^^
      compressor_by_4_sel W [e0, e1, e2, e3, e4, e5, e6] 3) ^^^
     (compressor_by_4_sel W [e0, e1, e2, e3, e4, e5, e6] 4 ^^^
      compressor_by_4_sel W [e0, e1, e2, e3, e4, e5, e6] 5 ^^^
      compressor_by_4_sel W [e0, e1, e2, e3, e4, e5, e6] 6))
      = (xfe_row_parity W [e0, e1, e2, e3, e4, e5, e6]).toNat := by
  simp only [compressor_by_4_sel_eq, bool_toNat_xor, xfe_row_parity, List.foldl_cons,
    List.foldl_nil, List.getD_cons_zero, List.getD_cons_succ]
  congr 1
  cases xfe_selected W e0 <;> cases xfe_selected W e1 <;> cases xfe_selected W e2 <;>
  cases xfe_selected W e3 <;> cases xfe_selected W e4 <;> cases xfe_selected W e5 <;>
  cases xfe_selected W e6 <;> rfl

theorem indices_map_rows : ∀ row ∈ indices_map, row.length = 7 := by
  decide

theorem indices_map_indices : ∀ row ∈ indices_map, ∀ e ∈ row, e.1 < 5 := by
  decide

theorem compressor_by_4_body_eq (W : List Nat) (acc : Nat) (row : List (Nat × Nat))
    (hrow : row.length = 7) (hacc : acc < 2 ^ 31) :
    compressor_by_4_body W acc row = 2 * acc + (xfe_row_parity W row).toNat := by
  match row, hrow with
  | [e0, e1, e2, e3, e4, e5, e6], _ =>
    have h1 : (acc <<< 1) % U32_MOD = 2 ^ 1 * acc := by
      rw [Nat.shiftLeft_eq, Nat.mul_comm]
      exact Nat.mod_eq_of_lt (by unfold U32_MOD; omega)
    have hp : (xfe_row_parity W [e0, e1, e2, e3, e4, e5, e6]).toNat < 2 ^ 1 := by
      have := Bool.toNat_le (xfe_row_parity W [e0, e1, e2, e3, e4, e5, e6])
      omega
    have hbody : compressor_by_4_body W acc [e0, e1, e2, e3, e4, e5, e6]
        = ((acc <<< 1) % U32_MOD) ||| (xfe_row_parity W [e0, e1, e2, e3, e4, e5, e6]).toNat :=
      congrArg (fun p => ((acc <<< 1) % U32_MOD) ||| p) (compressor_by_4_parity W _ _ _ _ _ _ _)
    rw [hbody, h1, ← Nat.mul_add_lt_is_or hp]

theorem foldl_compressor_by_4_body (W : List Nat) :
    ∀ (rs : List (List (Nat × Nat))) (acc a : Nat), (∀ row ∈ rs, row.length = 7) →
      acc < 2 ^ a → a + rs.length ≤ 32 →
      rs.foldl (compressor_by_4_body W) acc
        = rs.foldl (fun acc row => 2 * acc + (xfe_row_parity W row).toNat) acc := by
  intro rs
  induction rs with
  | nil => intro acc a _ _ _; rfl
  | cons row rs ih =>
    intro acc a hrows hacc hlen
    rw [List.length_cons] at hlen
    have h31 : acc < 2 ^ 31 :=
      lt_of_lt_of_le hacc (Nat.pow_le_pow_right (by norm_num) (by omega))
    rw [List.foldl_cons, List.foldl_cons,
      compressor_by_4_body_eq W acc row (hrows row (List.mem_cons_self _ _)) h31]
    apply ih _ (a + 1) (fun r hr => hrows r (List.mem_cons_of_mem _ hr))
    · have := Bool.toNat_le (xfe_row_parity W row)
      rw [Nat.pow_succ]
      omega
    · omega

/-- The compressed word of a window, as the specification describes it: row `r`
of the table gives bit `17 - r`, the parity of the seven selected bits, and no
higher bit is set. -/
theorem compressor_by_4_bits (W : List Nat) :
    compressor_by_4 W < 2 ^ 18 ∧
      ∀ r, r < 18 →
        (compressor_by_4 W).testBit (17 - r) = xfe_row_parity W (indices_map.getD r []) := by
  have hlen : indices_map.length = 18 := rfl
  have hfold : compressor_by_4 W
      = indices_map.foldl (fun acc row => 2 * acc + (xfe_row_parity W row).toNat) 0 := by
    unfold compressor_by_4
    exact foldl_compressor_by_4_body W indices_map 0 0 indices_map_rows (by norm_num)
      (by rw [hlen]; norm_num)
  rw [hfold]
  constructor
  · apply Nat.lt_pow_two_of_testBit
    intro i hi
    have : i = indices_map.length + (i - 18) := by rw [hlen]; omega
    rw [this, foldl_shift_in_high]
    exact Nat.zero_testBit _
  · intro r hr
    have := foldl_shift_in_low (xfe_row_parity W) [] indices_map 0 r (by rw [hlen]; exact hr)
    rw [hlen] at this
    exact this

/-! ### XFE CRC: truncation, seed sensitivity, reference -/

theorem foldl_lfsr18_lt (g : Nat → Nat) :
    ∀ (l : List Nat) (s : Nat), (s < 2 ^ 18 ∨ l ≠ []) →
      l.foldl (fun s i => lfsr18_step s (g i)) s < 2 ^ 18 := by
  intro l
  induction l with
  | nil =>
    intro s hs
    rcases hs with hs | hs
    · exact hs
    · exact absurd rfl hs
  | cons i l ih => intro s _; exact ih _ (Or.inl (lfsr18_step_lt _ _))

/-- The XFE CRC is an 18-bit value as soon as one group is scanned, or when the
seed already is one. -/
theorem crc_calcGanyXfeCrc_lt (data : List Nat) (n seed : Nat)
    (hlen : data.length = n) (hn : 4 ≤ n) (hsz : n < 2 ^ 64) (h : 5 ≤ n ∨ seed < 2 ^ 18) :
    ∃ v, crc_calcGanyXfeCrc data n seed = Outcome.ok v ∧ v < 2 ^ 18 := by
  refine ⟨_, crc_calcGanyXfeCrc_eq_fold data n seed hlen hn hsz, ?_⟩
  apply foldl_lfsr18_lt
  rcases h with h | h
  · right
    intro hnil
    have := congrArg List.length hnil
    rw [List.length_range'] at this
    simp at this
    omega
  · exact Or.inl h

/-- C4 fails on the code: with length exactly 4 the loop body never runs and the
seed is returned as it is, so a seed with bit 18 set comes back with bit 18 set. -/
theorem crc_calcGanyXfeCrc_length_four_returns_seed :
    (0x40000 : Nat) < 2 ^ 24 ∧
    crc_calcGanyXfeCrc [0, 0, 0, 0] 4 0x40000 = Outcome.ok 0x40000 ∧
    ¬ ((0x40000 : Nat) < 2 ^ 18) := by
  decide

/-- C7, as stated, fails: seeds that differ only above bit 17 give the same CRC
as soon as one group is scanned. -/
theorem crc_calcGanyXfeCrc_seed_collision :
    (0 : Nat) ≠ 0x40000 ∧ (0 : Nat) < 2 ^ 24 ∧ (0x40000 : Nat) < 2 ^ 24 ∧
    crc_calcGanyXfeCrc [0, 0, 0, 0, 0, 0, 0, 0] 8 0 = Outcome.ok 0 ∧
    crc_calcGanyXfeCrc [0, 0, 0, 0, 0, 0, 0, 0] 8 0x40000 = Outcome.ok 0 := by
  decide

/-- C7, amended. Seed sensitivity of the XFE CRC for 18-bit seeds: on a buffer of
`n ≥ 4` words, two distinct seeds below `2 ^ 18` give two returned CRCs that
differ. -/
theorem crc_calcGanyXfeCrc_seed_injective (data : List Nat) (n s1 s2 : Nat)
    (hlen : data.length = n) (hn : 4 ≤ n) (hsz : n < 2 ^ 64)
    (h1 : s1 < 2 ^ 18) (h2 : s2 < 2 ^ 18) (hne : s1 ≠ s2) :
    ∃ v1 v2, crc_calcGanyXfeCrc data n s1 = Outcome.ok v1 ∧
      crc_calcGanyXfeCrc data n s2 = Outcome.ok v2 ∧ v1 ≠ v2 := by
  refine ⟨_, _, crc_calcGanyXfeCrc_eq_fold data n s1 hlen hn hsz,
    crc_calcGanyXfeCrc_eq_fold data n s2 hlen hn hsz, ?_⟩
  intro h
  exact hne (foldl_lfsr18_inj _ _ s1 s2 h1 h2 h)

theorem crc_calcGanyXfeCrc_seed_injective_witness :
    [1, 2, 3, 4, 5, 6, 7, 8, 9].length = 9 ∧ 4 ≤ 9 ∧ 9 < 2 ^ 64 ∧ 0 < 2 ^ 18 ∧
    0x20000 < 2 ^ 18 ∧ 0 ≠ 0x20000 ∧
    ∃ v1 v2, crc_calcGanyXfeCrc [1, 2, 3, 4, 5, 6, 7, 8, 9] 9 0 = Outcome.ok v1 ∧
      crc_calcGanyXfeCrc [1, 2, 3, 4, 5, 6, 7, 8, 9] 9 0x20000 = Outcome.ok v2 ∧ v1 ≠ v2 :=
  ⟨rfl, by decide, by decide, by decide, by decide, by decide,
    crc_calcGanyXfeCrc_seed_injective [1, 2, 3, 4, 5, 6, 7, 8, 9] 9 0 0x20000 rfl (by decide)
      (by decide) (by decide) (by decide) (by decide)⟩

/-- C10. The XFE CRC equals its specified reference: on a buffer of `n = 4m + 4`
words `crc_calcGanyXfeCrc` returns the left fold, over the groups
`i = 0, 4, .., 4(m-1)` and starting from the seed, of the masked 18-bit step fed
the compressed word of the window `[0, data[i+3], data[i+2], data[i+1], data[i]]`;
and for every window `W` and every table row `r < 18` the compressed word of `W`
is below `2 ^ 18` and its bit `17 - r` is the XOR of the seven bits selected by
row `r` of `indices_map`. The bound on the seed that the claim states is not
needed. -/
theorem crc_calcGanyXfeCrc_eq_reference (data : List Nat) (m seed : Nat) (W : List Nat) (r : Nat)
    (hlen : data.length = 4 * m + 4) (hsz : 4 * m + 4 < 2 ^ 64) (hr : r < 18) :
    crc_calcGanyXfeCrc data (4 * m + 4) seed
      = Outcome.ok ((List.range' 0 m 4).foldl
          (fun s i => lfsr18_step s (compressor_by_4 [0, word_at data (i + 3),
            word_at data (i + 2), word_at data (i + 1), word_at data i])) seed) ∧
    compressor_by_4 W < 2 ^ 18 ∧
    (compressor_by_4 W).testBit (17 - r) = xfe_row_parity W (indices_map.getD r []) := by
  refine ⟨?_, (compressor_by_4_bits W).1, (compressor_by_4_bits W).2 r hr⟩
  have hm : (4 * m + 4 - 1) / 4 = m := by omega
  rw [crc_calcGanyXfeCrc_eq_fold data (4 * m + 4) seed hlen (by omega) hsz, hm]

theorem crc_calcGanyXfeCrc_eq_reference_witness :
    [1, 2, 3, 4, 5, 6, 7, 8, 9, 10, 11, 12].length = 4 * 2 + 4 ∧ 4 * 2 + 4 < 2 ^ 64 ∧ 3 < 18 ∧
    crc_calcGanyXfeCrc [1, 2, 3, 4, 5, 6, 7, 8, 9, 10, 11, 12] (4 * 2 + 4) 0x2ABCD
      = Outcome.ok ((List.range' 0 2 4).foldl
          (fun s i => lfsr18_step s (compressor_by_4
            [0, word_at [1, 2, 3, 4, 5, 6, 7, 8, 9, 10, 11, 12] (i + 3),
              word_at [1, 2, 3, 4, 5, 6, 7, 8, 9, 10, 11, 12] (i + 2),
              word_at [1, 2, 3, 4, 5, 6, 7, 8, 9, 10, 11, 12] (i + 1),
              word_at [1, 2, 3, 4, 5, 6, 7, 8, 9, 10, 11, 12] i])) 0x2ABCD) ∧
    compressor_by_4 [0, 4, 3, 2, 1] < 2 ^ 18 ∧
    (compressor_by_4 [0, 4, 3, 2, 1]).testBit (17 - 3)
      = xfe_row_parity [0, 4, 3, 2, 1] (indices_map.getD 3 []) :=
  ⟨rfl, by decide, by decide,
    crc_calcGanyXfeCrc_eq_reference [1, 2, 3, 4, 5, 6, 7, 8, 9, 10, 11, 12] 2 0x2ABCD
      [0, 4, 3, 2, 1] 3 rfl (by decide) (by decide)⟩

/-! ### Page checksum -/

theorem page_loop_eq (data : List Nat) (bound : Nat) :
    ∀ (m fuel word_nr u32Checksum : Nat), word_nr + m = bound → bound ≤ data.length →
      bound < SIZE_MOD → m < fuel →
      crc_calcPageChecksum_loop data bound fuel word_nr u32Checksum
        = Outcome.ok ((List.range' word_nr m).foldl
            (fun s i => crc_calcPageChecksum_body s (word_at data i)) u32Checksum) := by
  intro m
  induction m with
  | zero =>
    intro fuel word_nr u32Checksum hb _ _ hf
    obtain ⟨f, rfl⟩ : ∃ f, fuel = f + 1 := ⟨fuel - 1, by omega⟩
    have : ¬ word_nr < bound := by omega
    simp [crc_calcPageChecksum_loop, this]
  | succ m ih =>
    intro fuel word_nr u32Checksum hb hd hs hf
    obtain ⟨f, rfl⟩ : ∃ f, fuel = f + 1 := ⟨fuel - 1, by omega⟩
    have h1 : word_nr < bound := by omega
    have h2 : data[word_nr]? = some (word_at data word_nr) := getElem?_word_at (by omega)
    have h3 : size_add word_nr 1 = word_nr + 1 := size_add_eq (by omega)
    simp only [crc_calcPageChecksum_loop, h1, if_true, h2, h3]
    rw [ih f (word_nr + 1) _ (by omega) hd hs (by omega)]
    simp [List.range'_succ]

theorem crc_calcPageChecksum_eq_fold (data : List Nat) (hsz : data.length < 2 ^ 64) :
    crc_calcPageChecksum data data.length
      = Outcome.ok (crc_calcPageChecksum_tail (data.foldl crc_calcPageChecksum_body 0)) := by
  rw [crc_calcPageChecksum,
    page_loop_eq data data.length data.length (data.length + 1) 0 0 (by omega) (le_refl _)
      (by unfold SIZE_MOD; exact hsz) (by omega),
    crc_calcPageChecksum_return,
    foldl_word_at_range' crc_calcPageChecksum_body data data.length 0 (le_refl _),
    List.take_length]

theorem and_mask16 (x : Nat) : x &&& 0xFFFF = x % 65536 :=
  Nat.and_pow_two_sub_one_eq_mod x 16

theorem and_mask8 (x : Nat) : x &&& 0xFF = x % 256 :=
  Nat.and_pow_two_sub_one_eq_mod x 8

theorem crc_calcPageChecksum_body_eq {a w : Nat} (ha : a ≤ 0xFFFF) (hw : w < 2 ^ 16) :
    crc_calcPageChecksum_body a w = (if a + w > 0xFFFF then a + w - 0xFFFF else a + w) := by
  simp only [crc_calcPageChecksum_body, U32_MOD, and_mask16]
  split <;> split <;> omega

theorem page_sum_step_eq {a w : Nat} (ha : a ≤ 0xFFFF) (hw : w < 2 ^ 16) :
    page_sum_step a w = (if a + w > 0xFFFF then a + w - 0xFFFF else a + w) := by
  simp only [page_sum_step, and_mask16]
  split <;> omega

theorem crc_calcPageChecksum_tail_eq {a : Nat} (ha : a ≤ 0xFFFF) :
    crc_calcPageChecksum_tail a
      = (if a / 256 + a % 256 > 0xFF then a / 256 + a % 256 - 0xFF else a / 256 + a % 256) := by
  have h8 : (2 : Nat) ^ 8 = 256 := by norm_num
  have h32 : (2 : Nat) ^ 32 = 4294967296 := by norm_num
  have e1 : a / 256 % 256 = a / 256 := Nat.mod_eq_of_lt (by omega)
  have e2 : (a / 256 + a % 256) % 4294967296 = a / 256 + a % 256 :=
    Nat.mod_eq_of_lt (by omega)
  have e3 : (a / 256 + a % 256 + 1) % 4294967296 = a / 256 + a % 256 + 1 :=
    Nat.mod_eq_of_lt (by omega)
  simp only [crc_calcPageChecksum_tail, U32_MOD, and_mask8, Nat.shiftRight_eq_div_pow, h8, h32,
    e1, e2, e3, Nat.mod_mod]
  split <;> omega

/-- Adding with end-around carry: from the state that stands for the sum `S`
(0 for `S = 0`, else the value in 1..65535 congruent to `S` modulo 65535), the
loop body reaches the state that stands for `S` plus the sum of the words. -/
theorem foldl_page_body (l : List Nat) :
    ∀ (S : Nat), (∀ w ∈ l, w < 2 ^ 16) →
      l.foldl crc_calcPageChecksum_body (if S = 0 then 0 else (S - 1) % 65535 + 1)
        = (if S + l.sum = 0 then 0 else (S + l.sum - 1) % 65535 + 1) := by
  induction l with
  | nil => intro S _; simp
  | cons w l ih =>
    intro S hw
    have hw0 : w < 2 ^ 16 := hw w (List.mem_cons_self _ _)
    have hstep : crc_calcPageChecksum_body (if S = 0 then 0 else (S - 1) % 65535 + 1) w
        = (if S + w = 0 then 0 else (S + w - 1) % 65535 + 1) := by
      rw [crc_calcPageChecksum_body_eq (by split <;> omega) hw0]
      split <;> split <;> split <;> omega
    rw [List.foldl_cons, hstep, ih (S + w) (fun x hx => hw x (List.mem_cons_of_mem _ hx)),
      List.sum_cons, Nat.add_assoc]

theorem foldl_page_spec (l : List Nat) :
    ∀ (a : Nat), a ≤ 0xFFFF → (∀ w ∈ l, w < 2 ^ 16) →
      l.foldl crc_calcPageChecksum_body a = l.foldl page_sum_step a ∧
        l.foldl page_sum_step a ≤ 0xFFFF := by
  induction l with
  | nil => intro a ha _; exact ⟨rfl, ha⟩
  | cons w l ih =>
    intro a ha hw
    have hw0 : w < 2 ^ 16 := hw w (List.mem_cons_self _ _)
    have h1 : crc_calcPageChecksum_body a w = page_sum_step a w := by
      rw [crc_calcPageChecksum_body_eq ha hw0, page_sum_step_eq ha hw0]
    have h2 : page_sum_step a w ≤ 0xFFFF := by
      rw [page_sum_step_eq ha hw0]
      split <;> omega
    rw [List.foldl_cons, List.foldl_cons, h1]
    exact ih _ h2 (fun x hx => hw x (List.mem_cons_of_mem _ hx))


theorem crc_calcPageChecksum_sum (data : List Nat) (hw : ∀ w ∈ data, w < 2 ^ 16)
    (hsz : data.length < 2 ^ 64) :
    crc_calcPageChecksum data data.length
      = Outcome.ok (if data.sum = 0 then 0 else (data.sum - 1) % 255 + 1) := by
  have h := foldl_page_body data 0 hw
  simp only [if_true, Nat.zero_add] at h
  rw [crc_calcPageChecksum_eq_fold data hsz, h, crc_calcPageChecksum_tail_eq (by split <;> omega)]
  congr 1
  split <;> split <;> omega

/-- C11: on a buffer of 16-bit words whose length is the declared one,
`crc_calcPageChecksum` returns the value of the algorithm of the specification
(`page_checksum_spec`: running sum from 0 with the replacement by
`(sum + 1) AND 0xFFFF` above `0xFFFF`, then the byte fold and its low byte); the
words `[0x0001, 0x0002]` give `0x03` and the empty sequence gives 0. -/
theorem crc_calcPageChecksum_eq_spec (data : List Nat) (hw : ∀ w ∈ data, w < 2 ^ 16)
    (hsz : data.length < 2 ^ 64) :
    crc_calcPageChecksum data data.length = Outcome.ok (page_checksum_spec data) ∧
    crc_calcPageChecksum [0x0001, 0x0002] 2 = Outcome.ok 0x03 ∧
    crc_calcPageChecksum [] 0 = Outcome.ok 0 := by
  refine ⟨?_, by decide, by decide⟩
  obtain ⟨h1, h2⟩ := foldl_page_spec data 0 (by omega) hw
  have h8 : (2 : Nat) ^ 8 = 256 := by norm_num
  rw [crc_calcPageChecksum_eq_fold data hsz, h1, crc_calcPageChecksum_tail_eq h2]
  congr 1
  simp only [page_checksum_spec, and_mask8, Nat.shiftRight_eq_div_pow, h8]
  split <;> omega

theorem crc_calcPageChecksum_eq_spec_witness :
    (∀ w ∈ [0xFFFF, 0xFFFF, 0xFF00, 0x00FF, 1], w < 2 ^ 16) ∧
    [0xFFFF, 0xFFFF, 0xFF00, 0x00FF, 1].length < 2 ^ 64 ∧
    crc_calcPageChecksum [0xFFFF, 0xFFFF, 0xFF00, 0x00FF, 1]
        [0xFFFF, 0xFFFF, 0xFF00, 0x00FF, 1].length
      = Outcome.ok (page_checksum_spec [0xFFFF, 0xFFFF, 0xFF00, 0x00FF, 1]) ∧
    crc_calcPageChecksum [0x0001, 0x0002] 2 = Outcome.ok 0x03 ∧
    crc_calcPageChecksum [] 0 = Outcome.ok 0 :=
  ⟨by decide, by decide,
    crc_calcPageChecksum_eq_spec [0xFFFF, 0xFFFF, 0xFF00, 0x00FF, 1] (by decide) (by decide)⟩

/-- C18: for 16-bit words with exact sum `S`, `crc_calcPageChecksum` returns 0
if `S = 0` and `((S - 1) mod 255) + 1` otherwise; that value is congruent to `S`
modulo 255, is 0 only when every word is 0, and every reordering of the words
gives the same result. -/
theorem crc_calcPageChecksum_closed_form (data : List Nat) (hw : ∀ w ∈ data, w < 2 ^ 16)
    (hsz : data.length < 2 ^ 64) :
    crc_calcPageChecksum data data.length
      = Outcome.ok (if data.sum = 0 then 0 else (data.sum - 1) % 255 + 1) ∧
    (if data.sum = 0 then 0 else (data.sum - 1) % 255 + 1) % 255 = data.sum % 255 ∧
    ((if data.sum = 0 then 0 else (data.sum - 1) % 255 + 1) = 0 ↔ ∀ w ∈ data, w = 0) ∧
    ∀ data2 : List Nat, data2.Perm data →
      crc_calcPageChecksum data2 data2.length = crc_calcPageChecksum data data.length := by
  refine ⟨crc_calcPageChecksum_sum data hw hsz, by split <;> omega, ?_, ?_⟩
  · rw [← List.sum_eq_zero_iff]
    split <;> omega
  · intro data2 hp
    rw [crc_calcPageChecksum_sum data hw hsz,
      crc_calcPageChecksum_sum data2 (fun w h => hw w (hp.mem_iff.mp h))
        (by rw [hp.length_eq]; exact hsz),
      hp.sum_eq]

theorem crc_calcPageChecksum_closed_form_witness :
    (∀ w ∈ [0xFFFF, 0xFFFF, 0xFF00, 0x00FF, 1], w < 2 ^ 16) ∧
    [0xFFFF, 0xFFFF, 0xFF00, 0x00FF, 1].length < 2 ^ 64 ∧
    crc_calcPageChecksum [0xFFFF, 0xFFFF, 0xFF00, 0x00FF, 1]
        [0xFFFF, 0xFFFF, 0xFF00, 0x00FF, 1].length
      = Outcome.ok (if [0xFFFF, 0xFFFF, 0xFF00, 0x00FF, 1].sum = 0 then 0
          else ([0xFFFF, 0xFFFF, 0xFF00, 0x00FF, 1].sum - 1) % 255 + 1) ∧
    (if [0xFFFF, 0xFFFF, 0xFF00, 0x00FF, 1].sum = 0 then 0
      else ([0xFFFF, 0xFFFF, 0xFF00, 0x00FF, 1].sum - 1) % 255 + 1) % 255
      = [0xFFFF, 0xFFFF, 0xFF00, 0x00FF, 1].sum % 255 ∧
    ((if [0xFFFF, 0xFFFF, 0xFF00, 0x00FF, 1].sum = 0 then 0
      else ([0xFFFF, 0xFFFF, 0xFF00, 0x00FF, 1].sum - 1) % 255 + 1) = 0
      ↔ ∀ w ∈ [0xFFFF, 0xFFFF, 0xFF00, 0x00FF, 1], w = 0) ∧
    ∀ data2 : List Nat, data2.Perm [0xFFFF, 0xFFFF, 0xFF00, 0x00FF, 1] →
      crc_calcPageChecksum data2 data2.length
        = crc_calcPageChecksum [0xFFFF, 0xFFFF, 0xFF00, 0x00FF, 1]
            [0xFFFF, 0xFFFF, 0xFF00, 0x00FF, 1].length :=
  ⟨by decide, by decide,
    crc_calcPageChecksum_closed_form [0xFFFF, 0xFFFF, 0xFF00, 0x00FF, 1] (by decide) (by decide)⟩

/-! ### Zero input, short lengths, valid lengths -/

theorem foldl_lfsr24_zero : ∀ k : Nat, (List.replicate k 0).foldl lfsr24_step 0 = 0 := by
  intro k
  induction k with
  | zero => rfl
  | succ k ih =>
    rw [List.replicate_succ, List.foldl_cons]
    have h : lfsr24_step 0 0 = 0 := by decide
    rw [h, ih]

/-- C13: for every `n ≥ 2`, `crc_calc24bitCrc` over `n` words that are all
`0x0000`, with length `n` and seed 0, returns 0. -/
theorem crc_calc24bitCrc_zeros (n : Nat) (hn : 2 ≤ n) (hsz : n < 2 ^ 64) :
    crc_calc24bitCrc (List.replicate n 0) n 0 = Outcome.ok 0 := by
  rw [crc_calc24bitCrc_eq_fold (List.replicate n 0) n 0 (List.length_replicate _ _) hn hsz,
    List.take_replicate]
  have h : (0 : Nat) &&& 0xFFFFFF = 0 := by decide
  rw [h, foldl_lfsr24_zero]

theorem crc_calc24bitCrc_zeros_witness :
    2 ≤ 7 ∧ 7 < 2 ^ 64 ∧ crc_calc24bitCrc (List.replicate 7 0) 7 0 = Outcome.ok 0 :=
  ⟨by decide, by decide, crc_calc24bitCrc_zeros 7 (by decide) (by decide)⟩

theorem size_sub_wrap {n k : Nat} (h : n < k) (hk : k ≤ SIZE_MOD) :
    size_sub n k = n + SIZE_MOD - k := by
  unfold size_sub
  exact Nat.mod_eq_of_lt (by omega)

theorem crc24_loop_oob (data : List Nat) (bound : Nat) :
    ∀ (m fuel word_nr u32Crc : Nat), word_nr + m = data.length → data.length < bound →
      data.length < SIZE_MOD → m < fuel →
      crc_calc24bitCrc_loop data bound fuel word_nr u32Crc = Outcome.outOfBounds := by
  intro m
  induction m with
  | zero =>
    intro fuel word_nr u32Crc hb hd _ hf
    obtain ⟨f, rfl⟩ : ∃ f, fuel = f + 1 := ⟨fuel - 1, by omega⟩
    have h1 : word_nr < bound := by omega
    have h2 : data[word_nr]? = none := List.getElem?_eq_none (by omega)
    simp only [crc_calc24bitCrc_loop, h1, if_true, h2]
  | succ m ih =>
    intro fuel word_nr u32Crc hb hd hs hf
    obtain ⟨f, rfl⟩ : ∃ f, fuel = f + 1 := ⟨fuel - 1, by omega⟩
    have h1 : word_nr < bound := by omega
    have h2 : data[word_nr]? = some (word_at data word_nr) := getElem?_word_at (by omega)
    have h3 : size_add word_nr 1 = word_nr + 1 := size_add_eq (by omega)
    simp only [crc_calc24bitCrc_loop, h1, if_true, h2, h3]
    exact ih f (word_nr + 1) _ (by omega) hd hs (by omega)

theorem kf_loop_oob (data : List Nat) (bound fuel word_nr u32Crc : Nat)
    (h1 : word_nr < bound) (hd : data.length ≤ word_nr + 1) (hs : word_nr + 1 < SIZE_MOD) :
    crc_calcGanyKfCrc_loop data bound (fuel + 1) word_nr u32Crc = Outcome.outOfBounds := by
  have a1 : size_add word_nr 1 = word_nr + 1 := size_add_eq hs
  have r1 : data[word_nr + 1]? = none := List.getElem?_eq_none hd
  simp only [crc_calcGanyKfCrc_loop, h1, if_true, a1, r1]

theorem xfe_loop_oob (data : List Nat) (bound fuel word_nr u32Crc : Nat)
    (h1 : word_nr < bound) (hd : data.length ≤ word_nr + 3) (hs : word_nr + 3 < SIZE_MOD) :
    crc_calcGanyXfeCrc_loop data bound (fuel + 1) word_nr u32Crc = Outcome.outOfBounds := by
  have a3 : size_add word_nr 3 = word_nr + 3 := size_add_eq hs
  have r3 : data[word_nr + 3]? = none := List.getElem?_eq_none hd
  simp only [crc_calcGanyXfeCrc_loop, h1, if_true, a3, r3]

/-- C14: on a buffer that holds exactly `length` words, `crc_calcGanyXfeCrc` with
`length < 4`, and `crc_calc24bitCrc` and `crc_calcGanyKfCrc` with `length < 2`,
return no CRC: the loop bound `length - 4` / `length - 2` wraps around and the scan
reads past the end of the buffer, for every seed and every content. -/
theorem short_length_reads_out_of_bounds (data : List Nat) (length seed : Nat)
    (hlen : data.length = length) (h : length < 4) :
    crc_calcGanyXfeCrc data length seed = Outcome.outOfBounds ∧
    (length < 2 → crc_calc24bitCrc data length seed = Outcome.outOfBounds ∧
      crc_calcGanyKfCrc data length seed = Outcome.outOfBounds) := by
  have hS : SIZE_MOD = 2 ^ 64 := rfl
  refine ⟨?_, fun h2 => ⟨?_, ?_⟩⟩
  · rw [crc_calcGanyXfeCrc, size_sub_wrap h (by omega)]
    exact xfe_loop_oob data _ _ 0 seed (by omega) (by omega) (by omega)
  · rw [crc_calc24bitCrc, size_sub_wrap h2 (by omega),
      crc24_loop_oob data _ length _ 0 seed (by omega) (by omega) (by omega) (by omega)]
    rfl
  · rw [crc_calcGanyKfCrc, size_sub_wrap h2 (by omega),
      kf_loop_oob data _ _ 0 seed (by omega) (by omega) (by omega)]
    rfl

theorem short_length_reads_out_of_bounds_witness :
    [0x1234].length = 1 ∧ 1 < 4 ∧ 1 < 2 ∧
    crc_calcGanyXfeCrc [0x1234] 1 7 = Outcome.outOfBounds ∧
    crc_calc24bitCrc [0x1234] 1 7 = Outcome.outOfBounds ∧
    crc_calcGanyKfCrc [0x1234] 1 7 = Outcome.outOfBounds :=
  ⟨rfl, by decide, by decide,
    (short_length_reads_out_of_bounds [0x1234] 1 7 rfl (by decide)).1,
    (short_length_reads_out_of_bounds [0x1234] 1 7 rfl (by decide)).2 (by decide)⟩

/-- C15: on a buffer that holds exactly `n` words, `crc_calc24bitCrc` and
`crc_calcGanyKfCrc` with `n ≥ 2` (even or odd) and `crc_calcGanyXfeCrc` with
`n ≥ 4` (a multiple of four or not) return a value; a read at an index `≥ n`
would make the result `outOfBounds`, so every read is inside the buffer. -/
theorem valid_length_returns_value (data : List Nat) (n seed : Nat)
    (hlen : data.length = n) (hn : 2 ≤ n) (hsz : n < 2 ^ 64) :
    (∃ v, crc_calc24bitCrc data n seed = Outcome.ok v) ∧
    (∃ v, crc_calcGanyKfCrc data n seed = Outcome.ok v) ∧
    (4 ≤ n → ∃ v, crc_calcGanyXfeCrc data n seed = Outcome.ok v) :=
  ⟨⟨_, crc_calc24bitCrc_eq_fold data n seed hlen hn hsz⟩,
    ⟨_, crc_calcGanyKfCrc_eq_fold data n seed hlen hn hsz⟩,
    fun h4 => ⟨_, crc_calcGanyXfeCrc_eq_fold data n seed hlen h4 hsz⟩⟩

theorem valid_length_returns_value_witness :
    [1, 2, 3, 4, 5, 6, 7].length = 7 ∧ 2 ≤ 7 ∧ 7 < 2 ^ 64 ∧ 4 ≤ 7 ∧
    (∃ v, crc_calc24bitCrc [1, 2, 3, 4, 5, 6, 7] 7 9 = Outcome.ok v) ∧
    (∃ v, crc_calcGanyKfCrc [1, 2, 3, 4, 5, 6, 7] 7 9 = Outcome.ok v) ∧
    (∃ v, crc_calcGanyXfeCrc [1, 2, 3, 4, 5, 6, 7] 7 9 = Outcome.ok v) :=
  ⟨rfl, by decide, by decide, by decide,
    (valid_length_returns_value [1, 2, 3, 4, 5, 6, 7] 7 9 rfl (by decide) (by decide)).1,
    (valid_length_returns_value [1, 2, 3, 4, 5, 6, 7] 7 9 rfl (by decide) (by decide)).2.1,
    (valid_length_returns_value [1, 2, 3, 4, 5, 6, 7] 7 9 rfl (by decide) (by decide)).2.2
      (by decide)⟩

/-! ### The KF compressor bit by bit -/

theorem shiftRight_and_one (x i : Nat) : (x >>> i) &&& 1 = (x.testBit i).toNat := by
  rw [Nat.and_one_is_mod, Nat.shiftRight_eq_div_pow, Nat.toNat_testBit]

theorem and_one_eq_toNat (x : Nat) : x &&& 1 = (x.testBit 0).toNat := by
  rw [Nat.and_one_is_mod, Nat.toNat_testBit, Nat.pow_zero, Nat.div_one]

theorem testBit_toNat_shiftLeft (b : Bool) (k j : Nat) :
    (b.toNat <<< k).testBit j = (decide (j = k) && b) := by
  rw [Nat.testBit_shiftLeft, Nat.testBit_bool_to_nat]
  by_cases h : j = k
  · subst h; simp
  · by_cases h2 : j ≥ k
    · have : ¬ j - k = 0 := by omega
      simp [h, this]
    · simp [h, h2]

theorem compressor_by_2_body_bits (x r i : Nat) :
    compressor_by_2_body x r i
      = r ||| ((xor (xor (x.testBit i) (x.testBit (i + 1))) (x.testBit (i + 2))).toNat
          <<< (i / 2)) := by
  simp only [compressor_by_2_body, shiftRight_and_one, bool_toNat_xor]

theorem testBit_foldl_compressor_by_2_body (x j : Nat) :
    ∀ (l : List Nat) (acc : Nat),
      (l.foldl (compressor_by_2_body x) acc).testBit j
        = (acc.testBit j || l.any (fun i => decide (j = i / 2) &&
            xor (xor (x.testBit i) (x.testBit (i + 1))) (x.testBit (i + 2)))) := by
  intro l
  induction l with
  | nil => intro acc; simp
  | cons i l ih =>
    intro acc
    rw [List.foldl_cons, ih, compressor_by_2_body_bits, Nat.testBit_or,
      testBit_toNat_shiftLeft, List.any_cons, Bool.or_assoc]

theorem any_range'_even (j : Nat) (f : Nat → Bool) :
    ∀ n : Nat, (List.range' 0 n 2).any (fun i => decide (j = i / 2) && f i)
      = (decide (j < n) && f (2 * j)) := by
  intro n
  induction n with
  | zero => simp
  | succ n ih =>
    rw [List.range'_concat, List.any_append, ih]
    have h2 : (0 + 2 * n) / 2 = n := by omega
    simp only [List.any_cons, List.any_nil, Bool.or_false, h2]
    by_cases h : j < n
    · have : ¬ j = n := by omega
      have h' : j < n + 1 := by omega
      simp [h, this, h']
    · by_cases h3 : j = n
      · subst h3; simp
      · have h' : ¬ j < n + 1 := by omega
        simp [h, h3, h']

/-- C16: for every input `x` (so for every 64-bit one), bit `j` of
`compressor_by_2(x)` for `j` in 0..18 is bit `2j` XOR bit `2j+1` XOR bit `2j+2`
of `x`, bit 19 is bit 38 XOR bit 39 XOR bit 0 of `x`, and the result is below
`2 ^ 20`. -/
theorem compressor_by_2_bits (x j : Nat) (hj : j < 19) :
    (compressor_by_2 x).testBit j
      = xor (xor (x.testBit (2 * j)) (x.testBit (2 * j + 1))) (x.testBit (2 * j + 2)) ∧
    (compressor_by_2 x).testBit 19
      = xor (xor (x.testBit 38) (x.testBit 39)) (x.testBit 0) ∧
    compressor_by_2 x < 2 ^ 20 := by
  have hbits : ∀ k, (compressor_by_2 x).testBit k
      = ((decide (k < 19) &&
            xor (xor (x.testBit (2 * k)) (x.testBit (2 * k + 1))) (x.testBit (2 * k + 2))) ||
          (decide (k = 19) && xor (xor (x.testBit 38) (x.testBit 39)) (x.testBit 0))) := by
    intro k
    simp only [compressor_by_2, shiftRight_and_one, and_one_eq_toNat, bool_toNat_xor]
    rw [Nat.testBit_or, testBit_toNat_shiftLeft, testBit_foldl_compressor_by_2_body,
      any_range'_even k (fun i => xor (xor (x.testBit i) (x.testBit (i + 1))) (x.testBit (i + 2)))]
    simp
  refine ⟨?_, ?_, compressor_by_2_lt x⟩
  · have : ¬ j = 19 := by omega
    rw [hbits j]
    simp [hj, this]
  · rw [hbits 19]
    simp

theorem compressor_by_2_bits_witness :
    7 < 19 ∧
    (compressor_by_2 0xFEDCBA9876).testBit 7
      = xor (xor ((0xFEDCBA9876 : Nat).testBit (2 * 7)) ((0xFEDCBA9876 : Nat).testBit (2 * 7 + 1)))
          ((0xFEDCBA9876 : Nat).testBit (2 * 7 + 2)) ∧
    (compressor_by_2 0xFEDCBA9876).testBit 19
      = xor (xor ((0xFEDCBA9876 : Nat).testBit 38) ((0xFEDCBA9876 : Nat).testBit 39))
          ((0xFEDCBA9876 : Nat).testBit 0) ∧
    compressor_by_2 0xFEDCBA9876 < 2 ^ 20 :=
  ⟨by decide, compressor_by_2_bits 0xFEDCBA9876 7 (by decide)⟩

/-! ### Rolling CRC: the loop, the step of the specification, CRC-16/CCITT -/

theorem crc16_loop_eq (data : List Nat) (bound : Nat) :
    ∀ (m fuel word_nr u16Crc : Nat), word_nr + m = bound → bound ≤ data.length →
      bound < SIZE_MOD → m < fuel →
      crc_calc16bitCrc_loop data bound fuel word_nr u16Crc
        = Outcome.ok ((List.range' word_nr m).foldl
            (fun s i => crc_calc16bitCrc_body s (word_at data i)) u16Crc) := by
  intro m
  induction m with
  | zero =>
    intro fuel word_nr u16Crc hb _ _ hf
    obtain ⟨f, rfl⟩ : ∃ f, fuel = f + 1 := ⟨fuel - 1, by omega⟩
    have : ¬ word_nr < bound := by omega
    simp [crc_calc16bitCrc_loop, this]
  | succ m ih =>
    intro fuel word_nr u16Crc hb hd hs hf
    obtain ⟨f, rfl⟩ : ∃ f, fuel = f + 1 := ⟨fuel - 1, by omega⟩
    have h1 : word_nr < bound := by omega
    have h2 : data[word_nr]? = some (word_at data word_nr) := getElem?_word_at (by omega)
    have h3 : size_add word_nr 1 = word_nr + 1 := size_add_eq (by omega)
    simp only [crc_calc16bitCrc_loop, h1, if_true, h2, h3]
    rw [ih f (word_nr + 1) _ (by omega) hd hs (by omega)]
    simp [List.range'_succ]

theorem crc_calc16bitCrc_eq_fold (data : List Nat) (seed : Nat) (hsz : data.length < 2 ^ 64) :
    crc_calc16bitCrc data data.length seed
      = Outcome.ok (data.foldl crc_calc16bitCrc_body seed) := by
  rw [crc_calc16bitCrc,
    crc16_loop_eq data data.length data.length (data.length + 1) 0 seed (by omega) (le_refl _)
      (by unfold SIZE_MOD; exact hsz) (by omega),
    foldl_word_at_range' crc_calc16bitCrc_body data data.length seed (le_refl _),
    List.take_length]

theorem crc_calc16bitCrc_body_lt (s b : Nat) : crc_calc16bitCrc_body s b < 2 ^ 16 := by
  simp only [crc_calc16bitCrc_body, U16_MOD]
  exact Nat.mod_lt _ (by norm_num)

theorem ccitt_shift_lt (s : Nat) : ccitt_shift s < 2 ^ 16 := by
  unfold ccitt_shift
  split
  · exact Nat.xor_lt_two_pow (Nat.mod_lt _ (by norm_num)) (by norm_num)
  · exact Nat.mod_lt _ (by norm_num)

theorem rolling16_step_lt {s b : Nat} (hs : s < 2 ^ 16) (hb : b < 2 ^ 8) :
    rolling16_step s b < 2 ^ 16 := by
  simp only [rolling16_step]
  apply Nat.xor_lt_two_pow _ (Nat.mod_lt _ (by norm_num))
  apply Nat.xor_lt_two_pow _ (Nat.mod_lt _ (by norm_num))
  apply Nat.xor_lt_two_pow _
    (lt_of_lt_of_le (Nat.and_lt_two_pow _ (by norm_num : (0x0F : Nat) < 2 ^ 4)) (by norm_num))
  apply Nat.xor_lt_two_pow _ (lt_trans hb (by norm_num))
  apply Nat.or_lt_two_pow
  · have h : s &&& 0xFF < 2 ^ 8 := Nat.and_lt_two_pow _ (by norm_num)
    rw [Nat.shiftLeft_eq]
    omega
  · rw [Nat.shiftRight_eq_div_pow]
    omega

theorem testBit_0x1021 (i : Nat) :
    (0x1021 : Nat).testBit i = (decide (i = 0) || decide (i = 5) || decide (i = 12)) := by
  by_cases h : i < 13
  · interval_cases i <;> decide
  · have h1 : (0x1021 : Nat).testBit i = false :=
      Nat.testBit_lt_two_pow (lt_of_lt_of_le (by norm_num : (0x1021 : Nat) < 2 ^ 13)
        (Nat.pow_le_pow_right (by norm_num) (by omega)))
    have a : ¬ i = 0 := by omega
    have b : ¬ i = 5 := by omega
    have c : ¬ i = 12 := by omega
    simp [h1, a, b, c]

theorem testBit_ccitt_shift (s i : Nat) :
    (ccitt_shift s).testBit i
      = xor (decide (i < 16) && (decide (1 ≤ i) && s.testBit (i - 1)))
          (s.testBit 15 && (decide (i = 0) || decide (i = 5) || decide (i = 12))) := by
  unfold ccitt_shift
  split
  · rename_i h
    rw [Nat.testBit_xor, Nat.testBit_mod_two_pow, Nat.testBit_shiftLeft, testBit_0x1021, h]
    simp
  · rename_i h
    rw [Nat.testBit_mod_two_pow, Nat.testBit_shiftLeft]
    simp [h]

theorem bool_xor_cancel (a b : Bool) : xor a (xor a b) = b := by
  cases a <;> cases b <;> rfl

theorem ccitt_byte_eq (s b : Nat) :
    ccitt_byte s b = ccitt_shift (ccitt_shift (ccitt_shift (ccitt_shift (ccitt_shift
      (ccitt_shift (ccitt_shift (ccitt_shift (s ^^^ (b <<< 8))))))))) := rfl

theorem bool_xor_eq_bne (a b : Bool) : xor a b = (a != b) := rfl

theorem bool_bne_comm (a b : Bool) : (a != b) = (b != a) := by
  cases a <;> cases b <;> rfl

theorem bool_bne_left_comm (a b c : Bool) : (a != (b != c)) = (b != (a != c)) := by
  cases a <;> cases b <;> cases c <;> rfl

theorem bool_bne_assoc (a b c : Bool) : ((a != b) != c) = (a != (b != c)) := by
  cases a <;> cases b <;> cases c <;> rfl

theorem bool_bne_cancel (a b : Bool) : (a != (a != b)) = b := by
  cases a <;> cases b <;> rfl

theorem bool_bne_self (a : Bool) : (a != a) = false := by
  cases a <;> rfl

set_option maxHeartbeats 1000000 in
theorem testBit_crc16_body_eq_ccitt (s b i : Nat) (hb : b < 2 ^ 8) (hi : i < 16) :
    (crc_calc16bitCrc_body s b).testBit i = (ccitt_byte s b).testBit i := by
  have hbk : ∀ k, 8 ≤ k → b.testBit k = false := fun k hk =>
    Nat.testBit_lt_two_pow (lt_of_lt_of_le hb (Nat.pow_le_pow_right (by norm_num) hk))
  have m8 : (0xFF : Nat) = 2 ^ 8 - 1 := by norm_num
  have m4 : (0x000F : Nat) = 2 ^ 4 - 1 := by norm_num
  simp only [crc_calc16bitCrc_body, ccitt_byte_eq, U16_MOD, m8, m4, testBit_ccitt_shift,
    Nat.testBit_xor, Nat.testBit_mod_two_pow, Nat.testBit_shiftLeft, Nat.testBit_shiftRight,
    Nat.testBit_and, Nat.testBit_or, Nat.testBit_two_pow_sub_one]
  interval_cases i <;>
    (simp [hbk, -Nat.testBit_zero]
     try simp only [bool_xor_eq_bne, bool_bne_assoc, bool_bne_comm, bool_bne_left_comm,
       bool_bne_cancel, bool_bne_self, Bool.bne_false])

theorem crc_calc16bitCrc_body_eq_ccitt (s b : Nat) (hb : b < 2 ^ 8) :
    crc_calc16bitCrc_body s b = ccitt_byte s b := by
  apply Nat.eq_of_testBit_eq
  intro i
  by_cases hi : i < 16
  · exact testBit_crc16_body_eq_ccitt s b i hb hi
  · have hp : (2 : Nat) ^ 16 ≤ 2 ^ i := Nat.pow_le_pow_right (by norm_num) (by omega)
    rw [Nat.testBit_lt_two_pow (lt_of_lt_of_le (crc_calc16bitCrc_body_lt s b) hp), ccitt_byte_eq,
      Nat.testBit_lt_two_pow (lt_of_lt_of_le (ccitt_shift_lt _) hp)]

set_option maxHeartbeats 1000000 in
theorem testBit_crc16_body_eq_rolling (s b i : Nat) (hs : s < 2 ^ 16) (hb : b < 2 ^ 8)
    (hi : i < 16) :
    (crc_calc16bitCrc_body s b).testBit i = (rolling16_step s b).testBit i := by
  have hbk : ∀ k, 8 ≤ k → b.testBit k = false := fun k hk =>
    Nat.testBit_lt_two_pow (lt_of_lt_of_le hb (Nat.pow_le_pow_right (by norm_num) hk))
  have hsk : ∀ k, 16 ≤ k → s.testBit k = false := fun k hk =>
    Nat.testBit_lt_two_pow (lt_of_lt_of_le hs (Nat.pow_le_pow_right (by norm_num) hk))
  have m8 : (0xFF : Nat) = 2 ^ 8 - 1 := by norm_num
  have m4 : (0x000F : Nat) = 2 ^ 4 - 1 := by norm_num
  have m4b : (0x0F : Nat) = 2 ^ 4 - 1 := by norm_num
  simp only [crc_calc16bitCrc_body, rolling16_step, U16_MOD, m8, m4, m4b,
    Nat.testBit_xor, Nat.testBit_mod_two_pow, Nat.testBit_shiftLeft, Nat.testBit_shiftRight,
    Nat.testBit_and, Nat.testBit_or, Nat.testBit_two_pow_sub_one]
  interval_cases i <;> simp [hbk, hsk, -Nat.testBit_zero]

theorem crc_calc16bitCrc_body_eq_rolling (s b : Nat) (hs : s < 2 ^ 16) (hb : b < 2 ^ 8) :
    crc_calc16bitCrc_body s b = rolling16_step s b := by
  apply Nat.eq_of_testBit_eq
  intro i
  by_cases hi : i < 16
  · exact testBit_crc16_body_eq_rolling s b i hs hb hi
  · have hp : (2 : Nat) ^ 16 ≤ 2 ^ i := Nat.pow_le_pow_right (by norm_num) (by omega)
    rw [Nat.testBit_lt_two_pow (lt_of_lt_of_le (crc_calc16bitCrc_body_lt s b) hp),
      Nat.testBit_lt_two_pow (lt_of_lt_of_le (rolling16_step_lt hs hb) hp)]

theorem foldl_crc16_rolling (l : List Nat) :
    ∀ (s : Nat), s < 2 ^ 16 → (∀ b ∈ l, b < 2 ^ 8) →
      l.foldl crc_calc16bitCrc_body s = l.foldl rolling16_step s := by
  induction l with
  | nil => intro s _ _; rfl
  | cons b l ih =>
    intro s hs hb
    rw [List.foldl_cons, List.foldl_cons,
      ← crc_calc16bitCrc_body_eq_rolling s b hs (hb b (List.mem_cons_self _ _))]
    exact ih _ (crc_calc16bitCrc_body_lt s b) (fun x hx => hb x (List.mem_cons_of_mem _ hx))

theorem foldl_crc16_ccitt (l : List Nat) :
    ∀ (s : Nat), (∀ b ∈ l, b < 2 ^ 8) →
      l.foldl crc_calc16bitCrc_body s = l.foldl ccitt_byte s := by
  induction l with
  | nil => intro s _; rfl
  | cons b l ih =>
    intro s hb
    rw [List.foldl_cons, List.foldl_cons,
      ← crc_calc16bitCrc_body_eq_ccitt s b (hb b (List.mem_cons_self _ _))]
    exact ih _ (fun x hx => hb x (List.mem_cons_of_mem _ hx))

/-- C12: for every byte sequence whose length is the declared one and every
16-bit seed, `crc_calc16bitCrc` is the left fold over all bytes, from the seed, of
the step of the specification (`rolling16_step`: byte swap, XOR of the byte into
the low byte, then the three feedback XORs); the single byte `0xFF` with seed
`0x0000` gives `0x1EF0`, the value of one execution of that step. -/
theorem crc_calc16bitCrc_eq_rolling_fold (data : List Nat) (seed : Nat)
    (hb : ∀ b ∈ data, b < 2 ^ 8) (hseed : seed < 2 ^ 16) (hsz : data.length < 2 ^ 64) :
    crc_calc16bitCrc data data.length seed = Outcome.ok (data.foldl rolling16_step seed) ∧
    crc_calc16bitCrc [0xFF] 1 0x0000 = Outcome.ok 0x1EF0 ∧
    rolling16_step 0x0000 0xFF = 0x1EF0 := by
  refine ⟨?_, by decide, by decide⟩
  rw [crc_calc16bitCrc_eq_fold data seed hsz, foldl_crc16_rolling data seed hseed hb]

theorem crc_calc16bitCrc_eq_rolling_fold_witness :
    (∀ b ∈ [0x31, 0x32, 0x33, 0xFF], b < 2 ^ 8) ∧ 0xFFFF < 2 ^ 16 ∧
    [0x31, 0x32, 0x33, 0xFF].length < 2 ^ 64 ∧
    crc_calc16bitCrc [0x31, 0x32, 0x33, 0xFF] [0x31, 0x32, 0x33, 0xFF].length 0xFFFF
      = Outcome.ok ([0x31, 0x32, 0x33, 0xFF].foldl rolling16_step 0xFFFF) ∧
    crc_calc16bitCrc [0xFF] 1 0x0000 = Outcome.ok 0x1EF0 ∧
    rolling16_step 0x0000 0xFF = 0x1EF0 :=
  ⟨by decide, by decide, by decide,
    crc_calc16bitCrc_eq_rolling_fold [0x31, 0x32, 0x33, 0xFF] 0xFFFF (by decide) (by decide)
      (by decide)⟩

/-- C17: for every byte sequence whose length is the declared one and every seed,
`crc_calc16bitCrc` equals the bit-serial CRC-16/CCITT from that seed: for each
byte in order, XOR the byte into the high eight bits of the state, then eight
times shift left modulo `2 ^ 16` and XOR in `0x1021` if the bit shifted out was 1
(`ccitt_byte`). -/
theorem crc_calc16bitCrc_eq_ccitt (data : List Nat) (seed : Nat)
    (hb : ∀ b ∈ data, b < 2 ^ 8) (hsz : data.length < 2 ^ 64) :
    crc_calc16bitCrc data data.length seed = Outcome.ok (data.foldl ccitt_byte seed) := by
  rw [crc_calc16bitCrc_eq_fold data seed hsz, foldl_crc16_ccitt data seed hb]

theorem crc_calc16bitCrc_eq_ccitt_witness :
    (∀ b ∈ [0x31, 0x32, 0x33, 0xFF], b < 2 ^ 8) ∧
    [0x31, 0x32, 0x33, 0xFF].length < 2 ^ 64 ∧
    crc_calc16bitCrc [0x31, 0x32, 0x33, 0xFF] [0x31, 0x32, 0x33, 0xFF].length 0xFFFF
      = Outcome.ok ([0x31, 0x32, 0x33, 0xFF].foldl ccitt_byte 0xFFFF) :=
  ⟨by decide, by decide,
    crc_calc16bitCrc_eq_ccitt [0x31, 0x32, 0x33, 0xFF] 0xFFFF (by decide) (by decide)⟩

/-! ### Linear CRC: a change confined to one scanned word -/

theorem lfsr24_step_input_inj {s x y : Nat} (hx : x < 2 ^ 24) (hy : y < 2 ^ 24)
    (h : lfsr24_step s x = lfsr24_step s y) : x = y := by
  rw [lfsr24_step_input s x, lfsr24_step_input s y, Nat.xor_right_inj, and_mask24_of_lt hx,
    and_mask24_of_lt hy] at h
  exact h

theorem crc_calc24bitCrc_eq_range_fold (data : List Nat) (n seed : Nat)
    (hlen : data.length = n) (hn : 2 ≤ n) (hsz : n < 2 ^ 64) :
    crc_calc24bitCrc data n seed
      = Outcome.ok ((List.range' 0 (n - 2)).foldl (fun s i => lfsr24_step s (word_at data i))
          (seed &&& 0xFFFFFF)) := by
  rw [crc_calc24bitCrc_eq_fold data n seed hlen hn hsz,
    foldl_word_at_range' lfsr24_step data (n - 2) _ (by omega)]

/-- C19: for `n ≥ 3`, every seed and every index `j < n - 2`, two sequences of
16-bit words of length `n` that agree everywhere except at `j` have different
`crc_calc24bitCrc` values. -/
theorem crc_calc24bitCrc_detects_word_change (d d2 : List Nat) (n seed j : Nat)
    (hd : d.length = n) (hd2 : d2.length = n) (hn : 3 ≤ n) (hsz : n < 2 ^ 64)
    (hj : j < n - 2) (hagree : ∀ i, i < n → i ≠ j → word_at d i = word_at d2 i)
    (hw : word_at d j < 2 ^ 16) (hw2 : word_at d2 j < 2 ^ 16)
    (hne : word_at d j ≠ word_at d2 j) :
    ∃ v v2, crc_calc24bitCrc d n seed = Outcome.ok v ∧
      crc_calc24bitCrc d2 n seed = Outcome.ok v2 ∧ v ≠ v2 := by
  refine ⟨_, _, crc_calc24bitCrc_eq_range_fold d n seed hd (by omega) hsz,
    crc_calc24bitCrc_eq_range_fold d2 n seed hd2 (by omega) hsz, ?_⟩
  have hsplit : List.range' 0 (n - 2) = List.range' 0 j ++ (j :: List.range' (j + 1) (n - 3 - j)) := by
    have h1 : n - 2 = (n - 3 - j + 1) + j := by omega
    rw [h1, ← List.range'_append_1, Nat.zero_add, List.range'_succ]
  have hpre : (List.range' 0 j).foldl (fun s i => lfsr24_step s (word_at d2 i))
        (seed &&& 0xFFFFFF)
      = (List.range' 0 j).foldl (fun s i => lfsr24_step s (word_at d i)) (seed &&& 0xFFFFFF) := by
    apply foldl_range_congr
    intro s i hi
    rw [List.mem_range'_1] at hi
    rw [hagree i (by omega) (by omega)]
  have hpost : ∀ a, (List.range' (j + 1) (n - 3 - j)).foldl
        (fun s i => lfsr24_step s (word_at d2 i)) a
      = (List.range' (j + 1) (n - 3 - j)).foldl (fun s i => lfsr24_step s (word_at d i)) a := by
    intro a
    apply foldl_range_congr
    intro s i hi
    rw [List.mem_range'_1] at hi
    rw [hagree i (by omega) (by omega)]
  rw [hsplit, List.foldl_append, List.foldl_append, List.foldl_cons, List.foldl_cons, hpre, hpost]
  intro h
  have h2 := foldl_lfsr24_inj (word_at d) _ _ _ (lfsr24_step_lt _ _) (lfsr24_step_lt _ _) h
  exact hne (lfsr24_step_input_inj (lt_trans hw (by norm_num)) (lt_trans hw2 (by norm_num)) h2)

theorem crc_calc24bitCrc_detects_word_change_witness :
    [1, 2, 3, 4, 5].length = 5 ∧ [1, 0x8002, 3, 4, 5].length = 5 ∧ 3 ≤ 5 ∧ 5 < 2 ^ 64 ∧
    1 < 5 - 2 ∧
    (∀ i, i < 5 → i ≠ 1 → word_at [1, 2, 3, 4, 5] i = word_at [1, 0x8002, 3, 4, 5] i) ∧
    word_at [1, 2, 3, 4, 5] 1 < 2 ^ 16 ∧ word_at [1, 0x8002, 3, 4, 5] 1 < 2 ^ 16 ∧
    word_at [1, 2, 3, 4, 5] 1 ≠ word_at [1, 0x8002, 3, 4, 5] 1 ∧
    ∃ v v2, crc_calc24bitCrc [1, 2, 3, 4, 5] 5 0xABCDEF = Outcome.ok v ∧
      crc_calc24bitCrc [1, 0x8002, 3, 4, 5] 5 0xABCDEF = Outcome.ok v2 ∧ v ≠ v2 :=
  ⟨rfl, rfl, by decide, by decide, by decide, by decide, by decide, by decide, by decide,
    crc_calc24bitCrc_detects_word_change [1, 2, 3, 4, 5] [1, 0x8002, 3, 4, 5] 5 0xABCDEF 1
      rfl rfl (by decide) (by decide) (by decide) (by decide) (by decide) (by decide)
      (by decide)⟩

/-! ### XFE CRC: a single bit flip in the scanned region -/

theorem indices_map_masks :
    ∀ row ∈ indices_map, ∀ e ∈ row, ∃ k, k < 16 ∧ e.2 = 2 ^ k := by
  decide

theorem indices_map_covers :
    ∀ idx, idx < 5 → 1 ≤ idx → ∀ b, b < 16 →
      ∃ r, r < 18 ∧ xfe_selects_odd (indices_map.getD r []) idx b = true := by
  decide

theorem word_at_set (d : List Nat) (j v i : Nat) (hj : j < d.length) :
    word_at (d.set j v) i = if i = j then v else word_at d i := by
  unfold word_at
  rw [List.getD_eq_getElem?_getD, List.getD_eq_getElem?_getD, List.getElem?_set]
  by_cases h : i = j
  · subst h
    simp [hj]
  · have h2 : ¬ j = i := fun e => h e.symm
    simp [h, h2]

theorem xfe_selected_pow (W : List Nat) (i k : Nat) :
    xfe_selected W (i, 2 ^ k) = (word_at W i).testBit k := by
  unfold xfe_selected
  rw [decide_eq_decide.mpr (and_two_pow_ne_zero (word_at W i) k), Bool.decide_eq_true]

theorem xfe_selected_flip (W : List Nat) (p b : Nat) (hp : p < W.length) (e : Nat × Nat)
    (he : ∃ k, k < 16 ∧ e.2 = 2 ^ k) :
    xfe_selected (W.set p (word_at W p ^^^ 2 ^ b)) e
      = xor (xfe_selected W e) (decide (e = (p, 2 ^ b))) := by
  obtain ⟨i, mk⟩ := e
  obtain ⟨k, _, hk⟩ := he
  simp only at hk
  subst hk
  rw [xfe_selected_pow, xfe_selected_pow, word_at_set W p _ i hp]
  by_cases h : i = p
  · subst h
    rw [if_pos rfl, Nat.testBit_xor, Nat.testBit_two_pow]
    by_cases hkb : b = k
    · subst hkb
      simp
    · have h3 : ¬ (2 : Nat) ^ k = 2 ^ b := fun e => hkb (Nat.pow_right_injective (le_refl 2) e).symm
      simp [hkb, h3]
  · simp [h]

theorem foldl_parity_flip (W W2 : List Nat) (p b : Nat) :
    ∀ (row : List (Nat × Nat)) (a c : Bool),
      (∀ e ∈ row, xfe_selected W2 e = xor (xfe_selected W e) (decide (e = (p, 2 ^ b)))) →
      row.foldl (fun acc e => xor acc (xfe_selected W2 e)) (xor a c)
        = xor (row.foldl (fun acc e => xor acc (xfe_selected W e)) a)
            (row.foldl (fun acc e => xor acc (decide (e = (p, 2 ^ b)))) c) := by
  intro row
  induction row with
  | nil => intro a c _; rfl
  | cons e row ih =>
    intro a c h
    rw [List.foldl_cons, List.foldl_cons, List.foldl_cons, h e (List.mem_cons_self _ _),
      ← ih _ _ (fun x hx => h x (List.mem_cons_of_mem _ hx))]
    congr 1
    cases a <;> cases c <;> cases xfe_selected W e <;> cases decide (e = (p, 2 ^ b)) <;> rfl

theorem xfe_row_parity_flip (W : List Nat) (p b : Nat) (hp : p < W.length)
    (row : List (Nat × Nat)) (hrow : ∀ e ∈ row, ∃ k, k < 16 ∧ e.2 = 2 ^ k) :
    xfe_row_parity (W.set p (word_at W p ^^^ 2 ^ b)) row
      = xor (xfe_row_parity W row) (xfe_selects_odd row p b) :=
  foldl_parity_flip W _ p b row false false
    (fun e he => xfe_selected_flip W p b hp e (hrow e he))

theorem compressor_by_4_flip_ne (W : List Nat) (p b : Nat) (hW : W.length = 5) (hp1 : 1 ≤ p)
    (hp : p < 5) (hb : b < 16) :
    compressor_by_4 (W.set p (word_at W p ^^^ 2 ^ b)) ≠ compressor_by_4 W := by
  obtain ⟨r, hr, hodd⟩ := indices_map_covers p hp hp1 b hb
  have hlen : indices_map.length = 18 := rfl
  have hmem : indices_map.getD r [] ∈ indices_map := by
    rw [List.getD_eq_getElem _ _ (by omega)]
    exact List.getElem_mem _
  intro h
  have h1 := (compressor_by_4_bits (W.set p (word_at W p ^^^ 2 ^ b))).2 r hr
  have h2 := (compressor_by_4_bits W).2 r hr
  rw [h, h2, xfe_row_parity_flip W p b (by omega) _ (indices_map_masks _ hmem), hodd] at h1
  revert h1
  cases xfe_row_parity W (indices_map.getD r []) <;> simp

theorem lfsr18_step_input_inj {s x y : Nat} (hx : x < 2 ^ 18) (hy : y < 2 ^ 18)
    (h : lfsr18_step s x = lfsr18_step s y) : x = y := by
  apply Nat.eq_of_testBit_eq
  intro i
  by_cases hi : i < 18
  · have h1 := congrArg (fun v => v.testBit i) h
    simp only [testBit_lfsr18_step, hi, decide_True, Bool.true_and] at h1
    revert h1
    generalize x.testBit i = a
    generalize y.testBit i = c
    generalize (decide (1 ≤ i) && s.testBit (i - 1)) = u
    generalize (decide (i = 0) && xor (s.testBit 17) (s.testBit 6)) = w
    cases a <;> cases c <;> cases u <;> cases w <;> simp
  · have hp : (2 : Nat) ^ 18 ≤ 2 ^ i := Nat.pow_le_pow_right (by norm_num) (by omega)
    rw [Nat.testBit_lt_two_pow (lt_of_lt_of_le hx hp),
      Nat.testBit_lt_two_pow (lt_of_lt_of_le hy hp)]

theorem xfe_window_flip (d : List Nat) (j b g : Nat) (hj : j < d.length)
    (hg : 4 * g ≤ j) (hg2 : j < 4 * g + 4) :
    ∃ p, 1 ≤ p ∧ p < 5 ∧
      [0, word_at (d.set j (word_at d j ^^^ 2 ^ b)) (4 * g + 3),
        word_at (d.set j (word_at d j ^^^ 2 ^ b)) (4 * g + 2),
        word_at (d.set j (word_at d j ^^^ 2 ^ b)) (4 * g + 1),
        word_at (d.set j (word_at d j ^^^ 2 ^ b)) (4 * g)]
      = [0, word_at d (4 * g + 3), word_at d (4 * g + 2), word_at d (4 * g + 1),
          word_at d (4 * g)].set p
          (word_at [0, word_at d (4 * g + 3), word_at d (4 * g + 2), word_at d (4 * g + 1),
            word_at d (4 * g)] p ^^^ 2 ^ b) := by
  have hc : j = 4 * g ∨ j = 4 * g + 1 ∨ j = 4 * g + 2 ∨ j = 4 * g + 3 := by omega
  rcases hc with h | h | h | h
  · refine ⟨4, by omega, by omega, ?_⟩
    subst h
    simp only [word_at_set _ _ _ _ hj]
    simp [word_at]
  · refine ⟨3, by omega, by omega, ?_⟩
    subst h
    simp only [word_at_set _ _ _ _ hj]
    simp [word_at]
  · refine ⟨2, by omega, by omega, ?_⟩
    subst h
    simp only [word_at_set _ _ _ _ hj]
    simp [word_at]
  · refine ⟨1, by omega, by omega, ?_⟩
    subst h
    simp only [word_at_set _ _ _ _ hj]
    simp [word_at]

/-- C20: for `m ≥ 1`, every seed, every sequence `d` of length `4m + 4`, every
word index `j < 4m` and every bit position `b` in 0..15, replacing `d[j]` by
`d[j] XOR 2^b` changes the value of `crc_calcGanyXfeCrc`. -/
theorem crc_calcGanyXfeCrc_detects_bit_flip (d : List Nat) (m seed j b : Nat)
    (hlen : d.length = 4 * m + 4) (hsz : 4 * m + 4 < 2 ^ 64) (hj : j < 4 * m) (hb : b < 16) :
    ∃ v v2, crc_calcGanyXfeCrc d (4 * m + 4) seed = Outcome.ok v ∧
      crc_calcGanyXfeCrc (d.set j (word_at d j ^^^ 2 ^ b)) (4 * m + 4) seed = Outcome.ok v2 ∧
      v2 ≠ v := by
  have hjd : j < d.length := by omega
  refine ⟨_, _, crc_calcGanyXfeCrc_eq_fold d _ seed hlen (by omega) hsz,
    crc_calcGanyXfeCrc_eq_fold _ _ seed (by rw [List.length_set]; exact hlen) (by omega) hsz, ?_⟩
  have hm : (4 * m + 4 - 1) / 4 = m := by omega
  rw [hm]
  have hsplit : List.range' 0 m 4
      = List.range' 0 (j / 4) 4 ++ (4 * (j / 4) :: List.range' (4 * (j / 4) + 4) (m - j / 4 - 1) 4) := by
    have h1 : m = (m - j / 4 - 1 + 1) + j / 4 := by omega
    rw [← List.range'_succ, ← Nat.zero_add (4 * (j / 4)), List.range'_append, ← h1]
  have hpre : ∀ a, (List.range' 0 (j / 4) 4).foldl
        (fun s i => lfsr18_step s (compressor_by_4
          [0, word_at (d.set j (word_at d j ^^^ 2 ^ b)) (i + 3),
            word_at (d.set j (word_at d j ^^^ 2 ^ b)) (i + 2),
            word_at (d.set j (word_at d j ^^^ 2 ^ b)) (i + 1),
            word_at (d.set j (word_at d j ^^^ 2 ^ b)) i])) a
      = (List.range' 0 (j / 4) 4).foldl
        (fun s i => lfsr18_step s (compressor_by_4
          [0, word_at d (i + 3), word_at d (i + 2), word_at d (i + 1), word_at d i])) a := by
    intro a
    apply foldl_range_congr
    intro s i hi
    rw [List.mem_range'] at hi
    obtain ⟨t, ht, rfl⟩ := hi
    rw [word_at_set _ _ _ _ hjd, word_at_set _ _ _ _ hjd, word_at_set _ _ _ _ hjd,
      word_at_set _ _ _ _ hjd, if_neg (by omega), if_neg (by omega), if_neg (by omega),
      if_neg (by omega)]
  have hpost : ∀ a, (List.range' (4 * (j / 4) + 4) (m - j / 4 - 1) 4).foldl
        (fun s i => lfsr18_step s (compressor_by_4
          [0, word_at (d.set j (word_at d j ^^^ 2 ^ b)) (i + 3),
            word_at (d.set j (word_at d j ^^^ 2 ^ b)) (i + 2),
            word_at (d.set j (word_at d j ^^^ 2 ^ b)) (i + 1),
            word_at (d.set j (word_at d j ^^^ 2 ^ b)) i])) a
      = (List.range' (4 * (j / 4) + 4) (m - j / 4 - 1) 4).foldl
        (fun s i => lfsr18_step s (compressor_by_4
          [0, word_at d (i + 3), word_at d (i + 2), word_at d (i + 1), word_at d i])) a := by
    intro a
    apply foldl_range_congr
    intro s i hi
    rw [List.mem_range'] at hi
    obtain ⟨t, ht, rfl⟩ := hi
    rw [word_at_set _ _ _ _ hjd, word_at_set _ _ _ _ hjd, word_at_set _ _ _ _ hjd,
      word_at_set _ _ _ _ hjd, if_neg (by omega), if_neg (by omega), if_neg (by omega),
      if_neg (by omega)]
  rw [hsplit, List.foldl_append, List.foldl_append, List.foldl_cons, List.foldl_cons, hpre, hpost]
  intro h
  have h2 := foldl_lfsr18_inj
    (fun i => compressor_by_4
      [0, word_at d (i + 3), word_at d (i + 2), word_at d (i + 1), word_at d i])
    _ _ _ (lfsr18_step_lt _ _) (lfsr18_step_lt _ _) h
  have h3 := lfsr18_step_input_inj (compressor_by_4_bits _).1 (compressor_by_4_bits _).1 h2
  obtain ⟨p, hp1, hp, hW⟩ := xfe_window_flip d j b (j / 4) hjd (by omega) (by omega)
  rw [hW] at h3
  exact compressor_by_4_flip_ne
    [0, word_at d (4 * (j / 4) + 3), word_at d (4 * (j / 4) + 2), word_at d (4 * (j / 4) + 1),
      word_at d (4 * (j / 4))] p b rfl hp1 hp hb h3

theorem crc_calcGanyXfeCrc_detects_bit_flip_witness :
    [1, 2, 3, 4, 5, 6, 7, 8, 9, 10, 11, 12].length = 4 * 2 + 4 ∧ 4 * 2 + 4 < 2 ^ 64 ∧
    5 < 4 * 2 ∧ 15 < 16 ∧
    ∃ v v2, crc_calcGanyXfeCrc [1, 2, 3, 4, 5, 6, 7, 8, 9, 10, 11, 12] (4 * 2 + 4) 0xABCDEF
        = Outcome.ok v ∧
      crc_calcGanyXfeCrc ([1, 2, 3, 4, 5, 6, 7, 8, 9, 10, 11, 12].set 5
          (word_at [1, 2, 3, 4, 5, 6, 7, 8, 9, 10, 11, 12] 5 ^^^ 2 ^ 15)) (4 * 2 + 4) 0xABCDEF
        = Outcome.ok v2 ∧
      v2 ≠ v :=
  ⟨rfl, by decide, by decide, by decide,
    crc_calcGanyXfeCrc_detects_bit_flip [1, 2, 3, 4, 5, 6, 7, 8, 9, 10, 11, 12] 2 0xABCDEF 5 15
      rfl (by decide) (by decide) (by decide)⟩

end MlxCrc
